import Mathlib

/-!
Verification development for the Rulegen grammar engine
(`ruleparser.py` and `toposort.py`): a character-level rule parser,
a rule-set validator with reachability and cycle checks, a derivation
tree enumerator and a terminal-string codec.  All definitions are
shallow embeddings of the Python source; stateful loops are modelled
with explicit fuel so that divergence of the source is observable as
a distinguished out-of-fuel result.
-/

set_option linter.unnecessarySeqFocus false

deriving instance DecidableEq for Except

namespace Rulegen

/-- Root of generation rules (`INITIAL = 'RESULT'`). -/
def INITIAL : String := "RESULT"

/-- Parser output tokens (`Nonterminal`, `Literal`, `DBLookup`, `Control`
from `ruleparser.py`, each carrying its `content`). -/
inductive Token where
  | nonterminal (name : String)
  | literal (text : String)
  | dblookup (key : String)
  | control (symbol : Char)
deriving Repr, DecidableEq

/-- The nine parser states of `ruleparser.py`. -/
inductive PState where
  | awaitingNonterminal
  | awaitingEquals
  | awaitingStartOfRule
  | continuingRule
  | justHadOption
  | insideNonterminal
  | insideLiteral
  | insideDBLookup
  | escapingSomething
deriving Repr, DecidableEq

/-- `ParseError(got, expected)`: carries the offending item and, when
known, what was expected. -/
structure PErr where
  got : String
  expected : Option String
deriving Repr, DecidableEq

/-- `RuleError` variants raised by `parse_rules`. -/
inductive RErr where
  | nonconformant
  | redefinition (name : String)
  | undefined (name : String)
  | unreachable (count : Nat)
  | internalCount (expected got : Nat)
  | recursive
  | valueError
deriving Repr, DecidableEq

/-- Any error escaping `parse_rules`, plus the fuel sentinel marking a
diverging loop of the source. -/
inductive Err where
  | parse (e : PErr)
  | rule (e : RErr)
  | outOfFuel
deriving Repr, DecidableEq

/-- `NEXT_STATE` lookup with default (`NEXT_STATE.get(state, state)`). -/
def NEXT_STATE (s : PState) : PState :=
  match s with
  | .awaitingNonterminal => .awaitingEquals
  | .awaitingStartOfRule => .continuingRule
  | .justHadOption => .continuingRule
  | s => s

/-- `TOKEN_CLASS[state]` applied to the accumulated content. -/
def tokenFor (s : PState) (content : String) : Token :=
  match s with
  | .insideNonterminal => .nonterminal content
  | .insideDBLookup => .dblookup content
  | _ => .literal content

/-- `END_CHAR[state]`. -/
def endCharFor (s : PState) : Char :=
  match s with
  | .insideNonterminal => '>'
  | .insideDBLookup => ']'
  | _ => '"'

/-- States in which a rule may legally end. -/
def ruleEndOk (s : PState) : Bool :=
  match s with
  | .awaitingNonterminal | .continuingRule | .justHadOption => true
  | _ => false

/-- States whose body accepts raw characters (whitespace not skipped). -/
def isBodyState (s : PState) : Bool :=
  match s with
  | .insideNonterminal | .insideLiteral | .insideDBLookup
  | .escapingSomething => true
  | _ => false

/-- The whitespace test of `str.isspace` restricted to the ASCII
whitespace characters (the only ones the rule files use). -/
def isspace (c : Char) : Bool :=
  c = ' ' || c = '\t' || c = '\n' || c = '\x0b' || c = '\x0c' || c = '\r'

/-- `repr(char)` as used in `ParseError` messages. -/
def charRepr (c : Char) : String :=
  "'" ++ String.singleton c ++ "'"

/-- The mutable cursor of `parse_rule`: current state, state stack,
accumulated token content and tokens emitted so far. -/
structure PRSt where
  state : PState
  stack : List PState
  content : List Char
  tokens : List Token
deriving Repr, DecidableEq

/-- The check after `parse_rule`'s loop: were we expecting the end of
the rule? -/
def parse_rule_finish (st : PRSt) : Except PErr (List Token) :=
  if ruleEndOk st.state then .ok st.tokens else .error ⟨"EOL", none⟩

/-- The character loop of `parse_rule`, one constructor case per parser
state, mirroring the Python branches; `break` on a comment runs the
end-of-rule check with the current state. -/
def parse_rule_aux : List Char → PRSt → Except PErr (List Token)
  | [], st => parse_rule_finish st
  | c :: cs, st =>
    if !isBodyState st.state && isspace c then parse_rule_aux cs st
    else
      match st.state with
      | .awaitingNonterminal =>
        if c = '<' then
          parse_rule_aux cs { st with stack := st.state :: st.stack, state := .insideNonterminal }
        else if c = '#' then parse_rule_finish st
        else .error ⟨charRepr c, some ("a nonterminal")⟩
      | .awaitingEquals =>
        if c = '=' then
          parse_rule_aux cs
            { st with
                tokens := st.tokens ++ [.control '='],
                stack := [],
                state := .awaitingStartOfRule }
        else .error ⟨charRepr c, some ("a rule definition")⟩
      | .awaitingStartOfRule | .justHadOption =>
        if c = '<' then
          parse_rule_aux cs { st with stack := st.state :: st.stack, state := .insideNonterminal }
        else if c = '"' then
          parse_rule_aux cs { st with stack := st.state :: st.stack, state := .insideLiteral }
        else if c = '[' then
          parse_rule_aux cs { st with stack := st.state :: st.stack, state := .insideDBLookup }
        else if c = '?' ∧ st.state ≠ .justHadOption then
          parse_rule_aux cs
            { st with
                tokens := st.tokens ++ [.control '?'],
                stack := [],
                state := .justHadOption }
        else .error ⟨charRepr c, some ("a terminal or nonterminal")⟩
      | .continuingRule =>
        if c = '<' then
          parse_rule_aux cs { st with stack := st.state :: st.stack, state := .insideNonterminal }
        else if c = '"' then
          parse_rule_aux cs { st with stack := st.state :: st.stack, state := .insideLiteral }
        else if c = '[' then
          parse_rule_aux cs { st with stack := st.state :: st.stack, state := .insideDBLookup }
        else if c = '|' then
          parse_rule_aux cs
            { st with
                tokens := st.tokens ++ [.control '|'],
                stack := [],
                state := .awaitingStartOfRule }
        else if c = '?' then
          parse_rule_aux cs
            { st with
                tokens := st.tokens ++ [.control '?'],
                stack := [],
                state := .justHadOption }
        else if c = '#' then parse_rule_finish st
        else .error ⟨charRepr c, none⟩
      | .insideNonterminal | .insideLiteral | .insideDBLookup =>
        if c = '\\' then
          parse_rule_aux cs { st with stack := st.state :: st.stack, state := .escapingSomething }
        else if c = endCharFor st.state then
          match st.stack with
          | s :: rest =>
            parse_rule_aux cs
              { state := NEXT_STATE s,
                stack := rest,
                content := [],
                tokens := st.tokens ++ [tokenFor st.state (String.mk st.content)] }
          | [] => .error ⟨"stack", none⟩
        else parse_rule_aux cs { st with content := st.content ++ [c] }
      | .escapingSomething =>
        match st.stack with
        | s :: rest =>
          parse_rule_aux cs { st with content := st.content ++ [c], state := s, stack := rest }
        | [] => .error ⟨"stack", none⟩

/-- `parse_rule`: parse a single rule line into a token sequence. -/
def parse_rule (line : String) : Except PErr (List Token) :=
  parse_rule_aux line.data ⟨.awaitingNonterminal, [], [], []⟩

/-- A parsed rule set: insertion-ordered mapping from nonterminal name
to production (the Python `rules` dict). -/
abbrev Rules := List (String × List Token)

/-- Association-list lookup standing for Python `dict` access. -/
def lookupA {α : Type} : List (String × α) → String → Option α
  | [], _ => none
  | (k, v) :: rest, n => if k = n then some v else lookupA rest n

/-- The line loop of `parse_rules`: parse each line, unpack
`nonterminal, equals, *production`, check conformance and
redefinition, and record the rule. -/
def assemble : List String → Rules → Except Err Rules
  | [], acc => .ok acc
  | line :: rest, acc =>
    match parse_rule line with
    | .error e => .error (.parse e)
    | .ok [] => assemble rest acc
    | .ok [_] => .error (.rule .valueError)
    | .ok (nt :: eq :: production) =>
      match nt, eq with
      | .nonterminal name, .control '=' =>
        if (lookupA acc name).isSome then .error (.rule (.redefinition name))
        else assemble rest (acc ++ [(name, production)])
      | _, _ => .error (.rule .nonconformant)

/-- The nonterminal names referenced by a production, in order. -/
def depsOf (production : List Token) : List String :=
  production.filterMap (fun t =>
    match t with
    | .nonterminal n => some n
    | _ => none)

/-- Python `set.add`: add an element unless already present (the list
carries the set; insertion position is immaterial to the source's
semantics, which pops an arbitrary element). -/
def addSet (x : String) (s : List String) : List String :=
  if x ∈ s then s else s ++ [x]

/-- The dependency graph built by the reachability walk
(`defaultdict(list)` keyed by nonterminal). -/
abbrev Deps := List (String × List String)

/-- `dependencies[n].append(d)` for each `d` in `ds` (creates the key
on first append, like `defaultdict`). -/
def appendDeps : Deps → String → List String → Deps
  | [], n, ds => if ds.isEmpty then [] else [(n, ds)]
  | (k, v) :: rest, n, ds =>
    if k = n then (k, v ++ ds) :: rest else (k, v) :: appendDeps rest n ds

/-- Result of the reachability walk of `parse_rules`. -/
inductive WalkRes where
  | done (seen : List String) (deps : Deps)
  | undef (name : String)
  | fuelOut
deriving Repr, DecidableEq

/-- The `while len(unseen_nonterminals) > 0` walk of `parse_rules`:
pop a nonterminal, mark it seen, fail if it has no production, else
add every referenced nonterminal to the unseen set and record the
dependency edges.  The source has no guard against re-adding already
seen nonterminals; fuel makes its divergence observable. -/
def walk (rules : Rules) : Nat → List String → List String → Deps → WalkRes
  | 0, _, _, _ => .fuelOut
  | _ + 1, [], seen, deps => .done seen deps
  | fuel + 1, n :: rest, seen, deps =>
    let seen' := addSet n seen
    match lookupA rules n with
    | none => .undef n
    | some production =>
      let ds := depsOf production
      walk rules fuel (ds.foldl (fun u d => addSet d u) rest) seen' (appendDeps deps n ds)

/-- `unreachable_nodes` from `toposort.py`: keys of the graph that are
no arc's destination. -/
def unreachable_nodes (g : Deps) : List String :=
  (g.map Prod.fst).filter (fun k => !(g.any (fun p => p.2.contains k)))

/-- `editable_graph[node] = v`, with the `defaultdict` key insertion
performed by the preceding `editable_graph[node]` read. -/
def setGraph : Deps → String → List String → Deps
  | [], n, v => [(n, v)]
  | (k, w) :: rest, n, v =>
    if k = n then (k, v) :: rest else (k, w) :: setGraph rest n v

/-- Result of `toposort`. -/
inductive TopoRes where
  | sorted (l : List String)
  | cyclic
  | fuelOut
deriving Repr, DecidableEq

/-- The main loop of `toposort` (Kahn 1962): pop a node, zero its
outgoing edges, and enqueue destinations that have become free of
incoming edges; a final check for leftover edges reports a cycle. -/
def toposort_loop : Nat → Deps → List String → List String → TopoRes
  | 0, _, _, _ => .fuelOut
  | _ + 1, g, [], acc =>
    if g.any (fun p => !p.2.isEmpty) then .cyclic else .sorted acc
  | fuel + 1, g, n :: rest, acc =>
    let dests := (lookupA g n).getD []
    let g1 := setGraph g n []
    let unr := unreachable_nodes g1
    let nodes' := dests.foldl (fun ns d => if d ∈ unr then addSet d ns else ns) rest
    toposort_loop fuel g1 nodes' (acc ++ [n])

/-- `toposort(graph, startnodes)` with the start set supplied (as
`parse_rules` does). -/
def toposort (graph : Deps) (startnodes : List String) (fuel : Nat) : TopoRes :=
  toposort_loop fuel graph startnodes []

/-- The validation phase of `parse_rules` after the rules dict is
built: reachability walk from `RESULT`, the two count comparisons, and
the topological sort wrapped into `RuleError('recursive rule
definition exists')`. -/
def validate_rules (rules : Rules) (fuel : Nat) : Except Err Rules :=
  match walk rules fuel [INITIAL] [] [] with
  | .fuelOut => .error .outOfFuel
  | .undef n => .error (.rule (.undefined n))
  | .done seen deps =>
    if seen.length < rules.length then
      .error (.rule (.unreachable (rules.length - seen.length)))
    else if seen.length > rules.length then
      .error (.rule (.internalCount rules.length seen.length))
    else
      match toposort deps [INITIAL] fuel with
      | .fuelOut => .error .outOfFuel
      | .cyclic => .error (.rule .recursive)
      | .sorted _ => .ok rules

/-- `parse_rules` over the lines of the rule file. -/
def parse_rules (lines : List String) (fuel : Nat) : Except Err Rules :=
  match assemble lines [] with
  | .error e => .error e
  | .ok rules => validate_rules rules fuel

/-- The content slot of a `Tree` node: a token, the `True`/`False`
branch markers of a selection, or Python `None` (the absence marker of
an option). -/
inductive Content where
  | tok (t : Token)
  | mark (b : Bool)
  | nothing
deriving Repr, DecidableEq

/-- One node of the "stupidly simple n-ary tree": content, parent
reference and ordered children.  Python's aliased object references
become indices into an arena, so the in-place mutations of `expand`
are explicit arena updates. -/
structure Tree where
  content : Content
  parent : Option Nat
  children : List Nat
deriving Repr, DecidableEq

/-- The arena holding every allocated `Tree` node; a node's id is its
position. -/
abbrev Arena := List Tree

/-- Dereference a node id (ids are always in range by construction;
the default is never reached on arenas built by `all_terminals`). -/
def getT (a : Arena) (i : Nat) : Tree :=
  a.getD i ⟨.nothing, none, []⟩

/-- `node.children = cs`. -/
def setChildren (a : Arena) (i : Nat) (cs : List Nat) : Arena :=
  a.set i { getT a i with children := cs }

/-- `node.parent = p`. -/
def setParent (a : Arena) (i : Nat) (p : Nat) : Arena :=
  a.set i { getT a i with parent := some p }

/-- Exceptions the enumerator can raise (Python exception classes),
plus the fuel sentinel. -/
inductive ExpErr where
  | keyError
  | indexError
  | valueError
  | assertionError
  | attributeError
  | fuelOut
deriving Repr, DecidableEq

/-- `Tree.expand`: expand node `i` if possible.  Nonterminals expand
to one child per production token; `'?'` pops the next sibling from
the parent and pairs it with an absence marker; `'|'` splits the
parent's children into the prior and following siblings under two
branch-marker nodes.  `list.pop(node_pos + 1)` on a missing index is
an `IndexError`. -/
def expand (rules : Rules) (a : Arena) (i : Nat) : Except ExpErr (Arena × Bool) :=
  match (getT a i).content with
  | .tok (.nonterminal nm) =>
    match lookupA rules nm with
    | none => .error .keyError
    | some production =>
      let base := a.length
      let a1 := a ++ production.map (fun t => ⟨.tok t, some i, []⟩)
      let kids := (List.range production.length).map (fun j => base + j)
      .ok (setChildren a1 i kids, true)
  | .tok (.control sym) =>
    match (getT a i).parent with
    | none => .error .attributeError
    | some p =>
      let cs := (getT a p).children
      if i ∈ cs then
        let pos := cs.indexOf i
        if sym = '?' then
          match cs.get? (pos + 1) with
          | none => .error .indexError
          | some optId =>
            let a1 := setChildren a p (cs.eraseIdx (pos + 1))
            let a2 := setParent a1 optId i
            let a3 := a2 ++ [⟨.nothing, some i, []⟩]
            .ok (setChildren a3 i [optId, a2.length], true)
        else if sym = '|' then
          let prior := cs.take pos
          let following := cs.drop (pos + 1)
          let l := a.length
          let r := a.length + 1
          let a1 := a ++ [⟨.mark true, some i, prior⟩, ⟨.mark false, some i, following⟩]
          let a2 := prior.foldl (fun acc cid => setParent acc cid l) a1
          let a3 := following.foldl (fun acc cid => setParent acc cid r) a2
          let a4 := setChildren a3 p [i]
          .ok (setChildren a4 i [l, r], true)
        else .error .assertionError
      else .error .valueError
  | _ => .ok (a, false)

/-- One breadth-first pass of `all_terminals`' expansion loop: pop the
queue front, expand leaves, and enqueue the (possibly new) children.
`allT` accumulates `all_leaves_are_terminals`. -/
def bfs_pass (rules : Rules) : Nat → Arena → List Nat → Bool → Except ExpErr (Arena × Bool)
  | 0, _, _, _ => .error .fuelOut
  | _ + 1, a, [], allT => .ok (a, allT)
  | fuel + 1, a, n :: rest, allT =>
    if (getT a n).children.isEmpty then
      match expand rules a n with
      | .error e => .error e
      | .ok (a', didExpand) =>
        bfs_pass rules fuel a' (rest ++ (getT a' n).children) (allT && !didExpand)
    else
      bfs_pass rules fuel a (rest ++ (getT a n).children) allT

/-- `while not all_leaves_are_terminals`: repeat full breadth-first
passes from the root until a pass performs no expansion. -/
def expand_fix (rules : Rules) : Nat → Nat → Arena → Except ExpErr Arena
  | 0, _, _ => .error .fuelOut
  | passes + 1, stepFuel, a =>
    match bfs_pass rules stepFuel a [0] true with
    | .error e => .error e
    | .ok (a', allT) => if allT then .ok a' else expand_fix rules passes stepFuel a'

/-- `Literal.escape_brackets` at the character level: backslash-escape
`[` and `]`. -/
def escapeBracketsL : List Char → List Char
  | [] => []
  | c :: cs =>
    if c = '[' then '\\' :: '[' :: escapeBracketsL cs
    else if c = ']' then '\\' :: ']' :: escapeBracketsL cs
    else c :: escapeBracketsL cs

/-- `Literal.escape_brackets`. -/
def escape_brackets (s : String) : String :=
  String.mk (escapeBracketsL s.data)

/-- `''.join(current)`. -/
def joinAll (l : List String) : String :=
  l.foldl (fun acc s => acc ++ s) ""

/-- The depth-first enumeration loop of `all_terminals` over the
fully-expanded tree: an explicit stack of (accumulated pieces,
remaining nodes) pairs.  Terminal leaves append their rendered text; a
control node forks the state into its two alternatives; other nodes
push their children; an exhausted node list yields the joined string
if not already seen. -/
def run_stack (a : Arena) : Nat → List (List String × List Nat) → List String → List String → Except ExpErr (List String)
  | 0, _, _, _ => .error .fuelOut
  | _ + 1, [], _, out => .ok out
  | fuel + 1, (current, []) :: stk, seen, out =>
    let s := joinAll current
    if s ∈ seen then run_stack a fuel stk seen out
    else run_stack a fuel stk (s :: seen) (out ++ [s])
  | fuel + 1, (current, n :: ns) :: stk, seen, out =>
    match (getT a n).content with
    | .tok (.literal text) =>
      if (getT a n).children.isEmpty then
        run_stack a fuel ((current ++ [escape_brackets text], ns) :: stk) seen out
      else .error .assertionError
    | .tok (.dblookup key) =>
      if (getT a n).children.isEmpty then
        run_stack a fuel ((current ++ ["[" ++ key ++ "]"], ns) :: stk) seen out
      else .error .assertionError
    | .tok (.control _) =>
      match (getT a n).children with
      | [oa, ob] => run_stack a fuel ((current, oa :: ns) :: (current, ob :: ns) :: stk) seen out
      | _ => .error .valueError
    | _ => run_stack a fuel ((current, (getT a n).children ++ ns) :: stk) seen out

/-- `all_terminals`: expand a tree rooted at `Nonterminal(RESULT)` to
its terminal fixpoint, then enumerate every distinct terminal string. -/
def all_terminals (rules : Rules) (passFuel stepFuel stackFuel : Nat) : Except ExpErr (List String) :=
  match expand_fix rules passFuel stepFuel [⟨.tok (.nonterminal INITIAL), none, []⟩] with
  | .error e => .error e
  | .ok a => run_stack a stackFuel [([], [0])] [] []

/-- The character loop of `parse_terminals`: default state is "inside
literal"; unescaped `[`/`]` toggle between literal and lookup buffers,
emitting the closed buffer; backslash escapes the next character. -/
def parse_terminals_aux : List Char → PState → List PState → List Char → List Token → Except PErr (List Token)
  | [], st, _, cur, toks =>
    if st = .insideLiteral then .ok (toks ++ [.literal (String.mk cur)])
    else .error ⟨"EOL", none⟩
  | c :: cs, st, olds, cur, toks =>
    if st = .escapingSomething then
      match olds with
      | o :: os => parse_terminals_aux cs o os (cur ++ [c]) toks
      | [] => .error ⟨"stack", none⟩
    else if c = '\\' then parse_terminals_aux cs .escapingSomething (st :: olds) cur toks
    else if st = .insideLiteral then
      if c = '[' then
        parse_terminals_aux cs .insideDBLookup olds [] (toks ++ [.literal (String.mk cur)])
      else parse_terminals_aux cs st olds (cur ++ [c]) toks
    else if st = .insideDBLookup then
      if c = ']' then
        parse_terminals_aux cs .insideLiteral olds [] (toks ++ [.dblookup (String.mk cur)])
      else parse_terminals_aux cs st olds (cur ++ [c]) toks
    else parse_terminals_aux cs st olds cur toks

/-- `parse_terminals`: re-tokenize one emitted terminal string into
`Literal`/`DBLookup` tokens. -/
def parse_terminals (s : String) : Except PErr (List Token) :=
  parse_terminals_aux s.data .insideLiteral [] [] []

/-- Modelled from the spec's round-trip wording: re-flatten a decoded
token sequence by concatenating each Literal's text with `[`/`]`
re-escaped and each DBLookup as its bracketed form. -/
def reflatten (ts : List Token) : String :=
  joinAll (ts.map (fun t =>
    match t with
    | .literal text => escape_brackets text
    | .dblookup key => "[" ++ key ++ "]"
    | _ => ""))

/-! Auxiliary notions used by the theorems. -/

/-- The raw (duplicate-keeping) emission of the phase-2 stack loop:
identical recursion to `run_stack` but collecting every completed
sequence, used to express what the enumeration of a subtree produces
before the seen-set filters duplicates. -/
def run_raw (a : Arena) : Nat → List (List String × List Nat) → Except ExpErr (List String)
  | 0, _ => .error .fuelOut
  | _ + 1, [] => .ok []
  | fuel + 1, (current, []) :: stk =>
    match run_raw a fuel stk with
    | .error e => .error e
    | .ok rest => .ok (joinAll current :: rest)
  | fuel + 1, (current, n :: ns) :: stk =>
    match (getT a n).content with
    | .tok (.literal text) =>
      if (getT a n).children.isEmpty then
        run_raw a fuel ((current ++ [escape_brackets text], ns) :: stk)
      else .error .assertionError
    | .tok (.dblookup key) =>
      if (getT a n).children.isEmpty then
        run_raw a fuel ((current ++ ["[" ++ key ++ "]"], ns) :: stk)
      else .error .assertionError
    | .tok (.control _) =>
      match (getT a n).children with
      | [oa, ob] => run_raw a fuel ((current, oa :: ns) :: (current, ob :: ns) :: stk)
      | _ => .error .valueError
    | _ => run_raw a fuel ((current, (getT a n).children ++ ns) :: stk)

/-- First-occurrence filtering against a seen set: what the online
seen-set of `all_terminals` keeps from a raw emission. -/
def dedupNew (seen : List String) : List String → List String
  | [] => []
  | s :: rest => if s ∈ seen then dedupNew seen rest else s :: dedupNew (s :: seen) rest

/-- The shape `Literal (DBLookup Literal)*`: a non-empty token list
that starts and ends with a Literal and strictly alternates Literal
and DBLookup tokens. -/
def chainLD : List Token → Bool
  | [.literal _] => true
  | .literal _ :: .dblookup _ :: rest => chainLD rest
  | _ => false

/-- The shape `(Literal DBLookup)*` (possibly empty), the prefix form
of `chainLD` before the final Literal is appended. -/
def evenLD : List Token → Bool
  | [] => true
  | .literal _ :: .dblookup _ :: rest => evenLD rest
  | _ => false

/-- Does `parse_rules` end in the internal "expected N nonterminals,
somehow got M" sanity error? -/
def isInternalCountErr {α : Type} : Except Err α → Bool
  | .error (.rule (.internalCount _ _)) => true
  | _ => false

/-- Every token of every production of the rule set. -/
def tokensOf (rules : Rules) : List Token :=
  (rules.map Prod.snd).flatten

/-- A piece ever appended to the accumulated text in phase 2: an
escaped literal or a bracketed lookup whose content token occurs in
the rule set. -/
def GoodPiece (rules : Rules) (s : String) : Prop :=
  (∃ l, Token.literal l ∈ tokensOf rules ∧ s = escape_brackets l) ∨
  (∃ k, Token.dblookup k ∈ tokensOf rules ∧ s = "[" ++ k ++ "]")

/-- Terminal contents of an arena node all come from the rule set. -/
def ContentGood (rules : Rules) : Content → Prop
  | .tok (.literal l) => Token.literal l ∈ tokensOf rules
  | .tok (.dblookup k) => Token.dblookup k ∈ tokensOf rules
  | _ => True

/-- All terminal contents in the arena come from the rule set. -/
def ArenaGood (rules : Rules) (a : Arena) : Prop :=
  ∀ nd ∈ a, ContentGood rules nd.content

/-- A rule set whose literal texts contain no backslash and whose
lookup keys contain neither backslash nor closing bracket: the
fragment on which the emitted strings decode losslessly. -/
def cleanRules (rules : Rules) : Bool :=
  (tokensOf rules).all (fun t =>
    match t with
    | .literal l => !(l.data.contains '\\')
    | .dblookup k => !(k.data.contains '\\') && !(k.data.contains ']')
    | _ => true)

/-- Nonterminals reachable from `RESULT` through the productions. -/
inductive Reach (rules : Rules) : String → Prop where
  | init : Reach rules INITIAL
  | step {n m : String} {production : List Token} :
      Reach rules n → lookupA rules n = some production →
      m ∈ depsOf production → Reach rules m

/-! Concrete inputs used by individual claims. -/

/-- The cyclic two-rule file of claim C1. -/
def c1Lines : List String := ["<RESULT> = <A>", "<A> = <RESULT>"]

/-- A rule line whose production ends with the option control `?`. -/
def c2Line : String := "<RESULT> = \"y\" ?"

/-- The rule set `parse_rules` builds from `c2Line`. -/
def c2Rules : Rules := [("RESULT", [.literal "y", .control '?'])]

/-- A rule set with a backslash inside a literal. -/
def c3bsRules : Rules := [("RESULT", [.literal "a\\"])]

/-- A clean one-rule set used to witness the amended round trip. -/
def c3okRules : Rules := [("RESULT", [.literal "a", .dblookup "N"])]

/-- The doctest rule set of `all_terminals` (claim C5). -/
def c5Rules : Rules :=
  [(INITIAL, [.nonterminal "A", .literal " ", .nonterminal "B"]),
   ("A", [.literal "Hello", .control '|', .literal "Goodbye"]),
   ("B", [.control '?', .literal "[cruel] ", .literal "world"])]

/-- The expected enumeration of `c5Rules`. -/
def c5Expected : List String :=
  ["Hello \\[cruel\\] world", "Hello world",
   "Goodbye \\[cruel\\] world", "Goodbye world"]

/-- The two-rule file with one unreachable definition (claim C7). -/
def c7Lines : List String := ["<RESULT> = \"x\"", "<B> = \"y\""]

/-- The rules dict `parse_rules` assembles from `c7Lines`. -/
def c7Rules : Rules := [("RESULT", [.literal "x"]), ("B", [.literal "y"])]

/-- A file where every reachable nonterminal is defined, `B` is
unreachable, but the reachable part is cyclic. -/
def c7cexLines : List String := ["<RESULT> = <RESULT>", "<B> = \"y\""]

/-- A rule line accepted end-to-end whose production ends with `?`
(claim C9). -/
def c9Line : String := "<RESULT> = \"x\" ?"

/-- The rule set `parse_rules` builds from `c9Line`. -/
def c9Rules : Rules := [("RESULT", [.literal "x", .control '?'])]

/-- The rules dict `parse_rules` assembles from `c1Lines`. -/
def c1Rules : Rules :=
  [("RESULT", [.nonterminal "A"]), ("A", [.nonterminal "RESULT"])]

/-- The rules dict `parse_rules` assembles from `c7cexLines`. -/
def c7cexRules : Rules :=
  [("RESULT", [.nonterminal "RESULT"]), ("B", [.literal "y"])]

/-- The token-list shape maintained by each `parse_terminals` state:
inside a literal the emitted tokens form `(Literal DBLookup)*`; inside
a lookup they form `(Literal DBLookup)* Literal`. -/
def stInv : PState → List Token → Prop
  | .insideLiteral, toks => evenLD toks = true
  | .insideDBLookup, toks => chainLD toks = true
  | _, _ => True

/-- The full `parse_terminals` loop invariant: the stacked states are
never the escaping state, and the effective state (the stack top while
escaping) constrains the emitted tokens via `stInv`. -/
def ptInv (st : PState) (olds : List PState) (toks : List Token) : Prop :=
  (∀ s ∈ olds, s ≠ PState.escapingSomething) ∧
  match st, olds with
  | .escapingSomething, o :: _ => stInv o toks
  | .escapingSomething, [] => True
  | s, _ => stInv s toks

/-- The characters a single decoded token contributes on re-flattening. -/
def tokenFlatL : Token → List Char
  | .literal text => escapeBracketsL text.data
  | .dblookup key => '[' :: (key.data ++ [']'])
  | _ => []

/-- `reflatten` at the character level. -/
def reflattenL (ts : List Token) : List Char :=
  (ts.map tokenFlatL).flatten

/-- Empty rule set for the pipe-expansion witness (the `|` branch of
`expand` never consults the rules). -/
def c6Rules : Rules := []

/-- A four-node arena whose root has children `literal, |, literal`. -/
def c6Arena : Arena :=
  [⟨.mark true, none, [1, 2, 3]⟩,
   ⟨.tok (.literal "x"), some 0, []⟩,
   ⟨.tok (.control '|'), some 0, []⟩,
   ⟨.tok (.literal "y"), some 0, []⟩]

/-! Theorems. -/

theorem mem_addSet {y x : String} {s : List String} :
    y ∈ addSet x s ↔ y ∈ s ∨ y = x := by
  unfold addSet
  split
  · constructor
    · exact fun h => Or.inl h
    · rintro (h | rfl)
      · exact h
      · assumption
  · simp [List.mem_append]

theorem addSet_nodup {x : String} {s : List String} (h : s.Nodup) :
    (addSet x s).Nodup := by
  unfold addSet
  split
  · exact h
  · rw [List.nodup_append]
    exact ⟨h, List.nodup_singleton x, by simpa using fun hx => by simp_all⟩

theorem subset_addSet (x : String) (s : List String) : s ⊆ addSet x s := by
  intro y hy
  exact mem_addSet.mpr (Or.inl hy)

theorem mem_addSet_self (x : String) (s : List String) : x ∈ addSet x s := by
  unfold addSet
  split
  · assumption
  · simp

theorem lookupA_some_mem {α : Type} {l : List (String × α)} {n : String} {v : α}
    (h : lookupA l n = some v) : n ∈ l.map Prod.fst := by
  induction l with
  | nil => simp [lookupA] at h
  | cons p rest ih =>
    rw [lookupA] at h
    by_cases hp : p.1 = n
    · simp [hp]
    · rw [if_neg hp] at h
      simp [ih h]

theorem c1_walk_diverges (fuel : Nat) :
    ∀ seen deps,
      walk c1Rules fuel ["RESULT"] seen deps = .fuelOut ∧
      walk c1Rules fuel ["A"] seen deps = .fuelOut := by
  induction fuel with
  | zero => exact fun seen deps => ⟨rfl, rfl⟩
  | succ f ih =>
    intro seen deps
    constructor
    · have h : walk c1Rules (f + 1) ["RESULT"] seen deps =
          walk c1Rules f ["A"] (addSet "RESULT" seen)
            (appendDeps deps "RESULT" ["A"]) := rfl
      rw [h]
      exact (ih _ _).2
    · have h : walk c1Rules (f + 1) ["A"] seen deps =
          walk c1Rules f ["RESULT"] (addSet "A" seen)
            (appendDeps deps "A" ["RESULT"]) := rfl
      rw [h]
      exact (ih _ _).1

/-- C1: on the cyclic rule file `RESULT = <A>`, `A = <RESULT>`,
`parse_rules` does NOT terminate with the cyclic-dependency RuleError:
its reachability walk keeps re-adding the already-seen nonterminals to
the unseen set and loops forever (out of fuel at every fuel bound), so
the toposort and its "recursive rule definition exists" error are
never reached — though enumeration is indeed never attempted. -/
theorem C1_cyclic_input_walk_diverges (fuel : Nat) :
    parse_rules c1Lines fuel = .error .outOfFuel := by
  have h : parse_rules c1Lines fuel = validate_rules c1Rules fuel := rfl
  rw [h]
  unfold validate_rules
  rw [show walk c1Rules fuel [INITIAL] [] [] = walk c1Rules fuel ["RESULT"] [] [] from rfl]
  rw [(c1_walk_diverges fuel [] []).1]

theorem c7cex_walk_diverges (fuel : Nat) :
    ∀ seen deps, walk c7cexRules fuel ["RESULT"] seen deps = .fuelOut := by
  induction fuel with
  | zero => exact fun seen deps => rfl
  | succ f ih =>
    intro seen deps
    have h : walk c7cexRules (f + 1) ["RESULT"] seen deps =
        walk c7cexRules f ["RESULT"] (addSet "RESULT" seen)
          (appendDeps deps "RESULT" ["RESULT"]) := rfl
    rw [h]
    exact ih _ _

/-- C7 (counterexample): in the rule file `RESULT = <RESULT>`,
`B = "y"`, every nonterminal reachable from RESULT is defined and
exactly one defined nonterminal (`B`) is unreachable, yet
`parse_rules` never raises the RuleError reporting 1 unreachable
nonterminal: its reachability walk diverges on the reachable cycle. -/
theorem C7_cyclic_reachable_part_never_reports_unreachable :
    ¬ ∃ fuel, parse_rules c7cexLines fuel = .error (.rule (.unreachable 1)) := by
  rintro ⟨fuel, h⟩
  have h2 : parse_rules c7cexLines fuel = validate_rules c7cexRules fuel := rfl
  rw [h2] at h
  unfold validate_rules at h
  rw [show walk c7cexRules fuel [INITIAL] [] [] =
        walk c7cexRules fuel ["RESULT"] [] [] from rfl] at h
  rw [c7cex_walk_diverges fuel [] []] at h
  simp at h

theorem assemble_no_internal (lines : List String) :
    ∀ acc, isInternalCountErr (assemble lines acc) = false := by
  induction lines with
  | nil => intro acc; rfl
  | cons line rest ih =>
    intro acc
    rw [assemble]
    cases parse_rule line with
    | error e => rfl
    | ok toks =>
      match toks with
      | [] => exact ih acc
      | [t] => rfl
      | nt :: eq :: production =>
        cases nt with
        | nonterminal name =>
          cases eq with
          | control sym =>
            by_cases hs : sym = '='
            · subst hs
              simp only
              split
              · rfl
              · exact ih _
            · simp only
              split
              · simp_all
              · rfl
          | nonterminal m => rfl
          | literal m => rfl
          | dblookup m => rfl
        | literal m => rfl
        | dblookup m => rfl
        | control m => rfl

theorem walk_done_invariant (rules : Rules) :
    ∀ (fuel : Nat) (unseen seen : List String) (deps : Deps)
      (seenF : List String) (depsF : Deps),
      walk rules fuel unseen seen deps = .done seenF depsF →
      seen.Nodup → (∀ x ∈ seen, x ∈ rules.map Prod.fst) →
      seenF.Nodup ∧ ∀ x ∈ seenF, x ∈ rules.map Prod.fst := by
  intro fuel
  induction fuel with
  | zero => intro unseen seen deps seenF depsF h; exact absurd h (by rw [walk]; simp)
  | succ f ih =>
    intro unseen seen deps seenF depsF h hnd hsub
    match unseen with
    | [] =>
      rw [walk] at h
      injection h with h1 h2
      subst h1
      exact ⟨hnd, hsub⟩
    | n :: rest =>
      rw [walk] at h
      cases hl : lookupA rules n with
      | none => rw [hl] at h; exact absurd h (by simp)
      | some production =>
        rw [hl] at h
        refine ih _ _ _ _ _ h (addSet_nodup hnd) ?_
        intro x hx
        rcases mem_addSet.mp hx with hx | rfl
        · exact hsub x hx
        · exact lookupA_some_mem hl

theorem validate_no_internal (rules : Rules) (fuel : Nat) :
    isInternalCountErr (validate_rules rules fuel) = false := by
  unfold validate_rules
  split
  · rfl
  · rfl
  · rename_i seen deps hw
    have hinv := walk_done_invariant rules fuel [INITIAL] [] [] seen deps hw
      List.nodup_nil (by intro x hx; exact absurd hx (List.not_mem_nil x))
    have hle : seen.length ≤ rules.length := by
      have h1 : seen.length = seen.toFinset.card :=
        (List.toFinset_card_of_nodup hinv.1).symm
      have h2 : seen.toFinset ⊆ (rules.map Prod.fst).toFinset := by
        intro x hx
        rw [List.mem_toFinset] at hx ⊢
        exact hinv.2 x hx
      calc seen.length = seen.toFinset.card := h1
        _ ≤ (rules.map Prod.fst).toFinset.card := Finset.card_le_card h2
        _ ≤ (rules.map Prod.fst).length := List.toFinset_card_le _
        _ = rules.length := List.length_map _ _
    by_cases h1 : seen.length < rules.length
    · rw [if_pos h1]
      rfl
    · rw [if_neg h1, if_neg (by omega)]
      cases toposort deps [INITIAL] fuel with
      | fuelOut => rfl
      | cyclic => rfl
      | sorted l => rfl

theorem evenLD_append_lit (text : String) :
    ∀ (n : Nat) (ts : List Token), ts.length ≤ n → evenLD ts = true →
      chainLD (ts ++ [Token.literal text]) = true := by
  intro n
  induction n with
  | zero =>
    intro ts hlen h
    match ts with
    | [] => rfl
    | t :: rest => simp at hlen
  | succ n ih =>
    intro ts hlen h
    match ts with
    | [] => rfl
    | [t] => cases t <;> simp [evenLD] at h
    | t1 :: t2 :: rest =>
      cases t1 <;> cases t2 <;> simp [evenLD] at h
      rw [List.cons_append, List.cons_append]
      show chainLD (rest ++ [Token.literal text]) = true
      refine ih rest ?_ h
      simp only [List.length_cons] at hlen
      omega

theorem chainLD_append_db (key : String) :
    ∀ (n : Nat) (ts : List Token), ts.length ≤ n → chainLD ts = true →
      evenLD (ts ++ [Token.dblookup key]) = true := by
  intro n
  induction n with
  | zero =>
    intro ts hlen h
    match ts with
    | [] => exact Bool.noConfusion h
    | t :: rest => simp at hlen
  | succ n ih =>
    intro ts hlen h
    match ts with
    | [] => exact Bool.noConfusion h
    | [t] => cases t <;> simp [chainLD] at h <;> rfl
    | t1 :: t2 :: rest =>
      cases t1 <;> cases t2 <;> simp [chainLD] at h
      rw [List.cons_append, List.cons_append]
      show evenLD (rest ++ [Token.dblookup key]) = true
      refine ih rest ?_ h
      simp only [List.length_cons] at hlen
      omega

theorem ptInv_stInv {s : PState} {olds : List PState} {toks : List Token}
    (h : ptInv s olds toks) (hne : s ≠ PState.escapingSomething) : stInv s toks := by
  cases s <;> first | exact absurd rfl hne | exact h.2

theorem pt_aux_chain :
    ∀ (cs : List Char) (st : PState) (olds : List PState)
      (cur : List Char) (toks res : List Token),
      parse_terminals_aux cs st olds cur toks = .ok res →
      ptInv st olds toks → chainLD res = true := by
  intro cs
  induction cs with
  | nil =>
    intro st olds cur toks res h hinv
    rw [parse_terminals_aux.eq_def] at h
    simp only [] at h
    split at h
    · rename_i hst
      injection h with h'
      subst hst
      rw [← h']
      exact evenLD_append_lit _ toks.length toks le_rfl hinv.2
    · exact absurd h (by simp)
  | cons c cs ih =>
    intro st olds cur toks res h hinv
    rw [parse_terminals_aux.eq_def] at h
    simp only [] at h
    by_cases hesc : st = PState.escapingSomething
    · rw [if_pos hesc] at h
      cases olds with
      | nil => exact absurd h (by simp)
      | cons o os =>
        refine ih o os _ toks res h ?_
        have ho : o ≠ PState.escapingSomething := hinv.1 o (by simp)
        refine ⟨fun s hs => hinv.1 s (by simp [hs]), ?_⟩
        have hst : stInv o toks := by
          subst hesc
          cases o <;> first | exact absurd rfl ho | exact hinv.2
        cases o <;> first | exact absurd rfl ho | exact hst
    · rw [if_neg hesc] at h
      by_cases hc : c = '\\'
      · rw [if_pos hc] at h
        refine ih _ _ _ _ _ h ?_
        refine ⟨?_, ptInv_stInv hinv hesc⟩
        intro s hs
        rcases List.mem_cons.mp hs with rfl | hs
        · exact hesc
        · exact hinv.1 s hs
      · rw [if_neg hc] at h
        by_cases hlit : st = PState.insideLiteral
        · rw [if_pos hlit] at h
          subst hlit
          by_cases hb : c = '['
          · rw [if_pos hb] at h
            refine ih _ _ _ _ _ h ⟨hinv.1, ?_⟩
            exact evenLD_append_lit _ toks.length toks le_rfl hinv.2
          · rw [if_neg hb] at h
            exact ih _ _ _ _ _ h ⟨hinv.1, hinv.2⟩
        · rw [if_neg hlit] at h
          by_cases hdb : st = PState.insideDBLookup
          · rw [if_pos hdb] at h
            subst hdb
            by_cases hb : c = ']'
            · rw [if_pos hb] at h
              refine ih _ _ _ _ _ h ⟨hinv.1, ?_⟩
              exact chainLD_append_db _ toks.length toks le_rfl hinv.2
            · rw [if_neg hb] at h
              exact ih _ _ _ _ _ h ⟨hinv.1, hinv.2⟩
          · rw [if_neg hdb] at h
            exact ih _ _ _ _ _ h hinv

theorem getT_set (a : Arena) (i j : Nat) (v : Tree) :
    getT (a.set i v) j = if i = j ∧ i < a.length then v else getT a j := by
  unfold getT
  rw [List.getD_eq_getElem?_getD, List.getD_eq_getElem?_getD, List.getElem?_set]
  by_cases hij : i = j
  · subst hij
    by_cases hlen : i < a.length
    · simp [hlen]
    · simp [hlen, List.getElem?_eq_none (by omega : a.length ≤ i)]
  · simp [hij]

theorem length_setChildren (a : Arena) (i : Nat) (cs : List Nat) :
    (setChildren a i cs).length = a.length := List.length_set a i _

theorem length_setParent (a : Arena) (i p : Nat) :
    (setParent a i p).length = a.length := List.length_set a i _

theorem getT_setChildren (a : Arena) (i j : Nat) (cs : List Nat) :
    getT (setChildren a i cs) j =
      if i = j ∧ i < a.length then { getT a i with children := cs } else getT a j :=
  getT_set a i j _

theorem getT_setParent (a : Arena) (i j p : Nat) :
    getT (setParent a i p) j =
      if i = j ∧ i < a.length then { getT a i with parent := some p } else getT a j :=
  getT_set a i j _

theorem children_setParent (a : Arena) (i p j : Nat) :
    (getT (setParent a i p) j).children = (getT a j).children := by
  rw [getT_setParent]
  split
  · rename_i h
    rw [h.1]
  · rfl

theorem content_setParent (a : Arena) (i p j : Nat) :
    (getT (setParent a i p) j).content = (getT a j).content := by
  rw [getT_setParent]
  split
  · rename_i h
    rw [h.1]
  · rfl

theorem content_setChildren (a : Arena) (i : Nat) (cs : List Nat) (j : Nat) :
    (getT (setChildren a i cs) j).content = (getT a j).content := by
  rw [getT_setChildren]
  split
  · rename_i h
    rw [h.1]
  · rfl

theorem foldl_setParent_children (l : List Nat) (pid : Nat) :
    ∀ (a : Arena) (j : Nat),
      (getT (l.foldl (fun acc cid => setParent acc cid pid) a) j).children =
        (getT a j).children := by
  induction l with
  | nil => intro a j; rfl
  | cons x xs ih =>
    intro a j
    rw [List.foldl_cons, ih, children_setParent]

theorem foldl_setParent_content (l : List Nat) (pid : Nat) :
    ∀ (a : Arena) (j : Nat),
      (getT (l.foldl (fun acc cid => setParent acc cid pid) a) j).content =
        (getT a j).content := by
  induction l with
  | nil => intro a j; rfl
  | cons x xs ih =>
    intro a j
    rw [List.foldl_cons, ih, content_setParent]

theorem foldl_setParent_length (l : List Nat) (pid : Nat) :
    ∀ (a : Arena),
      (l.foldl (fun acc cid => setParent acc cid pid) a).length = a.length := by
  induction l with
  | nil => intro a; rfl
  | cons x xs ih =>
    intro a
    rw [List.foldl_cons, ih, length_setParent]

theorem getT_append_left (a b : Arena) (j : Nat) (h : j < a.length) :
    getT (a ++ b) j = getT a j := by
  unfold getT
  rw [List.getD_eq_getElem?_getD, List.getD_eq_getElem?_getD, List.getElem?_append,
    if_pos h]

theorem getT_append_right (a b : Arena) (k : Nat) :
    getT (a ++ b) (a.length + k) = getT b k := by
  unfold getT
  rw [List.getD_eq_getElem?_getD, List.getD_eq_getElem?_getD,
    List.getElem?_append_right (by omega), Nat.add_sub_cancel_left]

theorem not_mem_take_indexOf {α : Type} [DecidableEq α] (x : α) (l : List α) :
    x ∉ l.take (l.indexOf x) := by
  induction l with
  | nil => simp
  | cons b rest ih =>
    by_cases hb : b = x
    · subst hb
      simp [List.indexOf_cons_self]
    · rw [List.indexOf_cons_ne _ (by simpa using hb)]
      intro hm
      rw [List.take_succ_cons] at hm
      rcases List.mem_cons.mp hm with rfl | hm
      · exact hb rfl
      · exact ih hm

theorem not_mem_drop_indexOf_succ {α : Type} [DecidableEq α] (x : α) (l : List α)
    (hnd : l.Nodup) : x ∉ l.drop (l.indexOf x + 1) := by
  induction l with
  | nil => simp
  | cons b rest ih =>
    by_cases hb : b = x
    · subst hb
      rw [List.indexOf_cons_self]
      simpa using (List.nodup_cons.mp hnd).1
    · rw [List.indexOf_cons_ne _ (by simpa using hb)]
      rw [Nat.succ_add, List.drop_succ_cons]
      exact ih (List.nodup_cons.mp hnd).2

theorem run_raw_zero (a : Arena) (frames : List (List String × List Nat)) :
    run_raw a 0 frames = .error .fuelOut := by
  rw [run_raw.eq_def]

theorem run_raw_nil (a : Arena) (f : Nat) : run_raw a (f + 1) [] = .ok [] := rfl

theorem run_raw_emit_ok (a : Arena) (f : Nat) (cur : List String) (stk)
    (rest : List String) (h : run_raw a f stk = .ok rest) :
    run_raw a (f + 1) ((cur, []) :: stk) = .ok (joinAll cur :: rest) := by
  rw [run_raw.eq_def]
  simp only []
  rw [h]

theorem run_raw_emit_err (a : Arena) (f : Nat) (cur : List String) (stk)
    (e : ExpErr) (h : run_raw a f stk = .error e) :
    run_raw a (f + 1) ((cur, []) :: stk) = .error e := by
  rw [run_raw.eq_def]
  simp only []
  rw [h]

theorem run_raw_step_lit (a : Arena) (f : Nat) (cur : List String) (n : Nat)
    (ns : List Nat) (stk) (text : String)
    (hc : (getT a n).content = .tok (.literal text))
    (hch : (getT a n).children = []) :
    run_raw a (f + 1) ((cur, n :: ns) :: stk) =
      run_raw a f ((cur ++ [escape_brackets text], ns) :: stk) := by
  rw [run_raw.eq_def]
  simp only []
  rw [hc, hch]
  rfl

theorem run_raw_step_db (a : Arena) (f : Nat) (cur : List String) (n : Nat)
    (ns : List Nat) (stk) (key : String)
    (hc : (getT a n).content = .tok (.dblookup key))
    (hch : (getT a n).children = []) :
    run_raw a (f + 1) ((cur, n :: ns) :: stk) =
      run_raw a f ((cur ++ ["[" ++ key ++ "]"], ns) :: stk) := by
  rw [run_raw.eq_def]
  simp only []
  rw [hc, hch]
  rfl

theorem run_raw_step_control (a : Arena) (f : Nat) (cur : List String) (n : Nat)
    (ns : List Nat) (stk) (sym : Char) (oa ob : Nat)
    (hc : (getT a n).content = .tok (.control sym))
    (hch : (getT a n).children = [oa, ob]) :
    run_raw a (f + 1) ((cur, n :: ns) :: stk) =
      run_raw a f ((cur, oa :: ns) :: (cur, ob :: ns) :: stk) := by
  rw [run_raw.eq_def]
  simp only []
  rw [hc, hch]

theorem run_raw_step_other (a : Arena) (f : Nat) (cur : List String) (n : Nat)
    (ns : List Nat) (stk)
    (hc : (getT a n).content = .mark true ∨ (getT a n).content = .mark false ∨
      (getT a n).content = .nothing ∨
      ∃ nm, (getT a n).content = .tok (.nonterminal nm)) :
    run_raw a (f + 1) ((cur, n :: ns) :: stk) =
      run_raw a f ((cur, (getT a n).children ++ ns) :: stk) := by
  rw [run_raw.eq_def]
  simp only []
  rcases hc with hc | hc | hc | ⟨nm, hc⟩ <;> rw [hc]

theorem run_stack_nil (a : Arena) (f : Nat) (seen out : List String) :
    run_stack a (f + 1) [] seen out = .ok out := rfl

theorem run_stack_emit (a : Arena) (f : Nat) (cur : List String) (stk)
    (seen out : List String) :
    run_stack a (f + 1) ((cur, []) :: stk) seen out =
      if joinAll cur ∈ seen then run_stack a f stk seen out
      else run_stack a f stk (joinAll cur :: seen) (out ++ [joinAll cur]) := rfl

theorem run_raw_mono (a : Arena) :
    ∀ (f : Nat) (frames : List (List String × List Nat)) (v : List String),
      run_raw a f frames = .ok v → ∀ g, f ≤ g → run_raw a g frames = .ok v := by
  intro f
  induction f with
  | zero =>
    intro frames v h
    rw [run_raw_zero] at h
    exact absurd h (by simp)
  | succ f ih =>
    intro frames v h g hg
    obtain ⟨g', rfl⟩ : ∃ g', g = g' + 1 := ⟨g - 1, by omega⟩
    have hfg : f ≤ g' := by omega
    match frames with
    | [] => exact h
    | (cur, []) :: stk =>
      cases hrec : run_raw a f stk with
      | error e =>
        rw [run_raw_emit_err a f cur stk e hrec] at h
        exact absurd h (by simp)
      | ok rest =>
        rw [run_raw_emit_ok a f cur stk rest hrec] at h
        rw [run_raw_emit_ok a g' cur stk rest (ih stk rest hrec g' hfg)]
        exact h
    | (cur, n :: ns) :: stk =>
      rw [run_raw.eq_def] at h ⊢
      simp only [] at h ⊢
      cases hc : (getT a n).content with
      | tok t =>
        cases t with
        | literal text =>
          rw [hc] at h
          replace h : (if (getT a n).children.isEmpty = true
              then run_raw a f ((cur ++ [escape_brackets text], ns) :: stk)
              else Except.error ExpErr.assertionError) = Except.ok v := h
          show (if (getT a n).children.isEmpty = true
              then run_raw a g' ((cur ++ [escape_brackets text], ns) :: stk)
              else Except.error ExpErr.assertionError) = Except.ok v
          by_cases hch : (getT a n).children.isEmpty = true
          · rw [if_pos hch] at h ⊢
            exact ih _ _ h g' hfg
          · rw [if_neg hch] at h
            exact absurd h (by simp)
        | dblookup key =>
          rw [hc] at h
          replace h : (if (getT a n).children.isEmpty = true
              then run_raw a f ((cur ++ ["[" ++ key ++ "]"], ns) :: stk)
              else Except.error ExpErr.assertionError) = Except.ok v := h
          show (if (getT a n).children.isEmpty = true
              then run_raw a g' ((cur ++ ["[" ++ key ++ "]"], ns) :: stk)
              else Except.error ExpErr.assertionError) = Except.ok v
          by_cases hch : (getT a n).children.isEmpty = true
          · rw [if_pos hch] at h ⊢
            exact ih _ _ h g' hfg
          · rw [if_neg hch] at h
            exact absurd h (by simp)
        | control sym =>
          rw [hc] at h
          cases hch : (getT a n).children with
          | nil =>
            rw [hch] at h
            replace h : (Except.error ExpErr.valueError : Except ExpErr (List String)) =
              Except.ok v := h
            exact absurd h (by simp)
          | cons oa rest =>
            cases rest with
            | nil =>
              rw [hch] at h
              replace h : (Except.error ExpErr.valueError : Except ExpErr (List String)) =
                Except.ok v := h
              exact absurd h (by simp)
            | cons ob rest2 =>
              cases rest2 with
              | nil =>
                rw [hch] at h
                replace h : run_raw a f ((cur, oa :: ns) :: (cur, ob :: ns) :: stk) =
                  Except.ok v := h
                show run_raw a g' ((cur, oa :: ns) :: (cur, ob :: ns) :: stk) = Except.ok v
                exact ih _ _ h g' hfg
              | cons z rest3 =>
                rw [hch] at h
                replace h : (Except.error ExpErr.valueError : Except ExpErr (List String)) =
                  Except.ok v := h
                exact absurd h (by simp)
        | nonterminal nm =>
          rw [hc] at h
          replace h : run_raw a f ((cur, (getT a n).children ++ ns) :: stk) = Except.ok v := h
          show run_raw a g' ((cur, (getT a n).children ++ ns) :: stk) = Except.ok v
          exact ih _ _ h g' hfg
      | mark b =>
        rw [hc] at h
        replace h : run_raw a f ((cur, (getT a n).children ++ ns) :: stk) = Except.ok v := h
        show run_raw a g' ((cur, (getT a n).children ++ ns) :: stk) = Except.ok v
        exact ih _ _ h g' hfg
      | nothing =>
        rw [hc] at h
        replace h : run_raw a f ((cur, (getT a n).children ++ ns) :: stk) = Except.ok v := h
        show run_raw a g' ((cur, (getT a n).children ++ ns) :: stk) = Except.ok v
        exact ih _ _ h g' hfg

theorem run_raw_det (a : Arena) {f g : Nat} {frames} {u v : List String}
    (hu : run_raw a f frames = .ok u) (hv : run_raw a g frames = .ok v) : u = v := by
  have h1 := run_raw_mono a f frames u hu (f + g) (by omega)
  have h2 := run_raw_mono a g frames v hv (f + g) (by omega)
  rw [h1] at h2
  simpa using h2

theorem run_raw_concat (a : Arena) :
    ∀ (f1 : Nat) (frames1 : List (List String × List Nat)) (v1 : List String),
      run_raw a f1 frames1 = .ok v1 →
      ∀ (f2 : Nat) (frames2 : List (List String × List Nat)) (v2 : List String),
        run_raw a f2 frames2 = .ok v2 →
        run_raw a (f1 + f2) (frames1 ++ frames2) = .ok (v1 ++ v2) := by
  intro f1
  induction f1 with
  | zero =>
    intro frames1 v1 h
    rw [run_raw_zero] at h
    exact absurd h (by simp)
  | succ f ih =>
    intro frames1 v1 h f2 frames2 v2 h2
    have hsucc : f + 1 + f2 = (f + f2) + 1 := by omega
    match frames1 with
    | [] =>
      replace h : (Except.ok [] : Except ExpErr (List String)) = .ok v1 := h
      have hv1 : v1 = [] := by simpa using h.symm
      subst hv1
      rw [List.nil_append, List.nil_append]
      exact run_raw_mono a f2 frames2 v2 h2 (f + 1 + f2) (by omega)
    | (cur, []) :: stk =>
      cases hrec : run_raw a f stk with
      | error e =>
        rw [run_raw_emit_err a f cur stk e hrec] at h
        exact absurd h (by simp)
      | ok rest =>
        rw [run_raw_emit_ok a f cur stk rest hrec] at h
        have hv1 : v1 = joinAll cur :: rest := by simpa using h.symm
        subst hv1
        rw [List.cons_append, hsucc,
          run_raw_emit_ok a (f + f2) cur (stk ++ frames2) (rest ++ v2)
            (ih stk rest hrec f2 frames2 v2 h2), List.cons_append]
    | (cur, n :: ns) :: stk =>
      rw [List.cons_append, hsucc]
      rw [run_raw.eq_def] at h
      rw [run_raw.eq_def]
      simp only [] at h ⊢
      cases hc : (getT a n).content with
      | tok t =>
        cases t with
        | literal text =>
          rw [hc] at h
          replace h : (if (getT a n).children.isEmpty = true
              then run_raw a f ((cur ++ [escape_brackets text], ns) :: stk)
              else Except.error ExpErr.assertionError) = Except.ok v1 := h
          by_cases hch : (getT a n).children.isEmpty = true
          · rw [if_pos hch] at h
            show (if (getT a n).children.isEmpty = true
                then run_raw a (f + f2) ((cur ++ [escape_brackets text], ns) :: (stk ++ frames2))
                else Except.error ExpErr.assertionError) = Except.ok (v1 ++ v2)
            rw [if_pos hch]
            exact ih _ _ h f2 frames2 v2 h2
          · rw [if_neg hch] at h
            exact absurd h (by simp)
        | dblookup key =>
          rw [hc] at h
          replace h : (if (getT a n).children.isEmpty = true
              then run_raw a f ((cur ++ ["[" ++ key ++ "]"], ns) :: stk)
              else Except.error ExpErr.assertionError) = Except.ok v1 := h
          by_cases hch : (getT a n).children.isEmpty = true
          · rw [if_pos hch] at h
            show (if (getT a n).children.isEmpty = true
                then run_raw a (f + f2) ((cur ++ ["[" ++ key ++ "]"], ns) :: (stk ++ frames2))
                else Except.error ExpErr.assertionError) = Except.ok (v1 ++ v2)
            rw [if_pos hch]
            exact ih _ _ h f2 frames2 v2 h2
          · rw [if_neg hch] at h
            exact absurd h (by simp)
        | control sym =>
          rw [hc] at h
          cases hch : (getT a n).children with
          | nil =>
            rw [hch] at h
            replace h : (Except.error ExpErr.valueError : Except ExpErr (List String)) =
              Except.ok v1 := h
            exact absurd h (by simp)
          | cons oa rest =>
            cases rest with
            | nil =>
              rw [hch] at h
              replace h : (Except.error ExpErr.valueError : Except ExpErr (List String)) =
                Except.ok v1 := h
              exact absurd h (by simp)
            | cons ob rest2 =>
              cases rest2 with
              | nil =>
                rw [hch] at h
                replace h : run_raw a f ((cur, oa :: ns) :: (cur, ob :: ns) :: stk) =
                  Except.ok v1 := h
                show run_raw a (f + f2)
                    ((cur, oa :: ns) :: (cur, ob :: ns) :: (stk ++ frames2)) =
                  Except.ok (v1 ++ v2)
                exact ih _ _ h f2 frames2 v2 h2
              | cons z rest3 =>
                rw [hch] at h
                replace h : (Except.error ExpErr.valueError : Except ExpErr (List String)) =
                  Except.ok v1 := h
                exact absurd h (by simp)
        | nonterminal nm =>
          rw [hc] at h
          replace h : run_raw a f ((cur, (getT a n).children ++ ns) :: stk) = Except.ok v1 := h
          show run_raw a (f + f2) ((cur, (getT a n).children ++ ns) :: (stk ++ frames2)) =
            Except.ok (v1 ++ v2)
          exact ih _ _ h f2 frames2 v2 h2
      | mark b =>
        rw [hc] at h
        replace h : run_raw a f ((cur, (getT a n).children ++ ns) :: stk) = Except.ok v1 := h
        show run_raw a (f + f2) ((cur, (getT a n).children ++ ns) :: (stk ++ frames2)) =
          Except.ok (v1 ++ v2)
        exact ih _ _ h f2 frames2 v2 h2
      | nothing =>
        rw [hc] at h
        replace h : run_raw a f ((cur, (getT a n).children ++ ns) :: stk) = Except.ok v1 := h
        show run_raw a (f + f2) ((cur, (getT a n).children ++ ns) :: (stk ++ frames2)) =
          Except.ok (v1 ++ v2)
        exact ih _ _ h f2 frames2 v2 h2

theorem run_stack_eq_dedup (a : Arena) :
    ∀ (f : Nat) (frames : List (List String × List Nat)) (seen out : List String),
      run_stack a f frames seen out =
        (run_raw a f frames).map (fun raw => out ++ dedupNew seen raw) := by
  intro f
  induction f with
  | zero =>
    intro frames seen out
    rw [run_stack.eq_def, run_raw_zero]
    rfl
  | succ f ih =>
    intro frames seen out
    match frames with
    | [] =>
      rw [run_stack_nil, run_raw_nil]
      simp [dedupNew, Except.map]
    | (cur, []) :: stk =>
      rw [run_stack_emit]
      cases hrec : run_raw a f stk with
      | error e =>
        rw [run_raw_emit_err a f cur stk e hrec]
        by_cases hs : joinAll cur ∈ seen
        · rw [if_pos hs, ih stk seen out, hrec]
        · rw [if_neg hs, ih stk _ _, hrec]
          rfl
      | ok rest =>
        rw [run_raw_emit_ok a f cur stk rest hrec]
        by_cases hs : joinAll cur ∈ seen
        · rw [if_pos hs, ih stk seen out, hrec]
          simp [Except.map, dedupNew, hs]
        · rw [if_neg hs, ih stk _ _, hrec]
          simp [Except.map, dedupNew, hs]
    | (cur, n :: ns) :: stk =>
      rw [run_stack.eq_def, run_raw.eq_def]
      simp only []
      cases hc : (getT a n).content with
      | tok t =>
        cases t with
        | literal text =>
          cases hch : (getT a n).children with
          | nil => exact ih _ _ _
          | cons x xs => rfl
        | dblookup key =>
          cases hch : (getT a n).children with
          | nil => exact ih _ _ _
          | cons x xs => rfl
        | control sym =>
          cases hch : (getT a n).children with
          | nil => rfl
          | cons oa rest =>
            cases rest with
            | nil => rfl
            | cons ob rest2 =>
              cases rest2 with
              | nil => exact ih _ _ _
              | cons z rest3 => rfl
        | nonterminal nm => exact ih _ _ _
      | mark b => exact ih _ _ _
      | nothing => exact ih _ _ _

theorem dedupNew_toFinset : ∀ (raw seen : List String),
    (dedupNew seen raw).toFinset = raw.toFinset \ seen.toFinset := by
  intro raw
  induction raw with
  | nil => intro seen; simp [dedupNew]
  | cons s rest ih =>
    intro seen
    rw [dedupNew]
    by_cases hs : s ∈ seen
    · rw [if_pos hs, ih seen]
      ext x
      by_cases hx : x = s
      · simp [hx, hs]
      · simp [hx]
    · rw [if_neg hs]
      rw [List.toFinset_cons, ih (s :: seen)]
      ext x
      by_cases hx : x = s
      · simp [hx, hs]
      · simp [hx]

theorem getT_append_fst (a : Arena) (x y : Tree) : getT (a ++ [x, y]) a.length = x := by
  have h := getT_append_right a [x, y] 0
  rw [Nat.add_zero] at h
  rw [h]
  rfl

theorem getT_append_snd (a : Arena) (x y : Tree) :
    getT (a ++ [x, y]) (a.length + 1) = y := by
  have h := getT_append_right a [x, y] 1
  rw [h]
  rfl

/-- C6: expanding an occurrence of the control token `|` yields
exactly two alternatives: the left branch node holds exactly the
sibling nodes strictly before the `|`, the right branch exactly those
strictly after it, neither contains the `|` itself, the parent's child
list collapses to the `|` node alone (never a three-way split), and
the strings the phase-2 enumeration produces from the `|` node are
exactly those of the left branch together with those of the right
branch (their union, after duplicate removal). -/
theorem C6_pipe_two_alternatives (rules : Rules) (a : Arena) (i p : Nat)
    (hi : i < a.length) (hp : p < a.length) (hip : i ≠ p)
    (hcon : (getT a i).content = .tok (.control '|'))
    (hpar : (getT a i).parent = some p)
    (hmem : i ∈ (getT a p).children)
    (hnd : (getT a p).children.Nodup) :
    ∃ a' : Arena,
      expand rules a i = .ok (a', true) ∧
      (getT a' i).children = [a.length, a.length + 1] ∧
      (getT a' (a.length)).children =
        (getT a p).children.take ((getT a p).children.indexOf i) ∧
      (getT a' (a.length + 1)).children =
        (getT a p).children.drop ((getT a p).children.indexOf i + 1) ∧
      i ∉ (getT a' (a.length)).children ∧
      i ∉ (getT a' (a.length + 1)).children ∧
      (getT a' p).children = [i] ∧
      (∀ (fuel : Nat) (cur : List String) (ns : List Nat) stk (seen out : List String),
        run_stack a' (fuel + 1) ((cur, i :: ns) :: stk) seen out =
          run_stack a' fuel
            ((cur, a.length :: ns) :: (cur, (a.length + 1) :: ns) :: stk) seen out) ∧
      (∀ (f1 f2 : Nat) (cur : List String) (ns : List Nat) (rawL rawR : List String),
        run_raw a' f1 [(cur, a.length :: ns)] = .ok rawL →
        run_raw a' f2 [(cur, (a.length + 1) :: ns)] = .ok rawR →
        run_raw a' (f1 + f2 + 1) [(cur, i :: ns)] = .ok (rawL ++ rawR)) ∧
      (∀ (g : Nat) (res : List String) (f1 f2 : Nat) (cur : List String)
          (ns : List Nat) (rawL rawR : List String),
        run_stack a' g [(cur, i :: ns)] [] [] = .ok res →
        run_raw a' f1 [(cur, a.length :: ns)] = .ok rawL →
        run_raw a' f2 [(cur, (a.length + 1) :: ns)] = .ok rawR →
        res.toFinset = rawL.toFinset ∪ rawR.toFinset) := by
  obtain ⟨cs, hcs⟩ : ∃ x, (getT a p).children = x := ⟨_, rfl⟩
  rw [hcs] at hmem hnd ⊢
  set A1 := a ++ [(⟨.mark true, some i, cs.take (cs.indexOf i)⟩ : Tree),
    ⟨.mark false, some i, cs.drop (cs.indexOf i + 1)⟩] with hA1
  set A2 := (cs.take (cs.indexOf i)).foldl (fun acc cid => setParent acc cid a.length) A1
    with hA2
  set A3 := (cs.drop (cs.indexOf i + 1)).foldl
    (fun acc cid => setParent acc cid (a.length + 1)) A2 with hA3
  set A4 := setChildren A3 p [i] with hA4
  set A5 := setChildren A4 i [a.length, a.length + 1] with hA5
  have hL1 : A1.length = a.length + 2 := by
    rw [hA1]
    simp
  have hL2 : A2.length = a.length + 2 := by
    rw [hA2, foldl_setParent_length, hL1]
  have hL3 : A3.length = a.length + 2 := by
    rw [hA3, foldl_setParent_length, hL2]
  have hL4 : A4.length = a.length + 2 := by
    rw [hA4, length_setChildren, hL3]
  have hexp : expand rules a i = .ok (A5, true) := by
    simp only [expand, hcon, hpar]
    rw [hcs, if_pos hmem, if_neg (show ¬(('|' : Char) = '?') from by decide), if_true]
  have hchild : (getT A5 i).children = [a.length, a.length + 1] := by
    rw [hA5, getT_setChildren, if_pos ⟨rfl, by omega⟩]
  have hcont : (getT A5 i).content = .tok (.control '|') := by
    rw [hA5, content_setChildren, hA4, content_setChildren, hA3, foldl_setParent_content,
      hA2, foldl_setParent_content, hA1, getT_append_left a _ i hi, hcon]
  have hleft : (getT A5 (a.length)).children = cs.take (cs.indexOf i) := by
    rw [hA5, getT_setChildren, if_neg (fun hh => by omega),
      hA4, getT_setChildren, if_neg (fun hh => by omega),
      hA3, foldl_setParent_children, hA2, foldl_setParent_children, hA1,
      getT_append_fst]
  have hright : (getT A5 (a.length + 1)).children = cs.drop (cs.indexOf i + 1) := by
    rw [hA5, getT_setChildren, if_neg (fun hh => by omega),
      hA4, getT_setChildren, if_neg (fun hh => by omega),
      hA3, foldl_setParent_children, hA2, foldl_setParent_children, hA1,
      getT_append_snd]
  have hparent : (getT A5 p).children = [i] := by
    rw [hA5, getT_setChildren, if_neg (fun hh => hip hh.1),
      hA4, getT_setChildren, if_pos ⟨rfl, by omega⟩]
  have hconcat : ∀ (f1 f2 : Nat) (cur : List String) (ns : List Nat)
      (rawL rawR : List String),
      run_raw A5 f1 [(cur, a.length :: ns)] = .ok rawL →
      run_raw A5 f2 [(cur, (a.length + 1) :: ns)] = .ok rawR →
      run_raw A5 (f1 + f2 + 1) [(cur, i :: ns)] = .ok (rawL ++ rawR) := by
    intro f1 f2 cur ns rawL rawR h1 h2
    rw [run_raw_step_control A5 (f1 + f2) cur i ns [] '|' (a.length) (a.length + 1)
      hcont hchild]
    have hcc := run_raw_concat A5 f1 [(cur, a.length :: ns)] rawL h1 f2
      [(cur, (a.length + 1) :: ns)] rawR h2
    simpa using hcc
  refine ⟨A5, hexp, hchild, hleft, hright, ?_, ?_, hparent, ?_, hconcat, ?_⟩
  · rw [hleft]
    exact not_mem_take_indexOf i cs
  · rw [hright]
    exact not_mem_drop_indexOf_succ i cs hnd
  · intro fuel cur ns stk seen out
    rw [run_stack.eq_def]
    simp only []
    rw [hcont, hchild]
  · intro g res f1 f2 cur ns rawL rawR hg h1 h2
    rw [run_stack_eq_dedup] at hg
    cases hraw : run_raw A5 g [(cur, i :: ns)] with
    | error e =>
      rw [hraw] at hg
      exact absurd hg (by simp [Except.map])
    | ok raw =>
      rw [hraw] at hg
      have hres : res = dedupNew [] raw := by simpa [Except.map] using hg.symm
      have hrl := run_raw_det A5 hraw (hconcat f1 f2 cur ns rawL rawR h1 h2)
      rw [hres, hrl, dedupNew_toFinset]
      simp

/-- C6 (witness): the pipe-expansion theorem instantiated at a
concrete arena whose root has children `[literal, |, literal]`. -/
theorem C6_pipe_two_alternatives_witness :
    ∃ a' : Arena,
      expand c6Rules c6Arena 2 = .ok (a', true) ∧
      (getT a' 2).children = [4, 5] ∧
      (getT a' 4).children = [1] ∧
      (getT a' 5).children = [3] ∧
      2 ∉ (getT a' 4).children ∧
      2 ∉ (getT a' 5).children ∧
      (getT a' 0).children = [2] ∧
      (∀ (fuel : Nat) (cur : List String) (ns : List Nat)
          (stk : List (List String × List Nat)) (seen out : List String),
        run_stack a' (fuel + 1) ((cur, 2 :: ns) :: stk) seen out =
          run_stack a' fuel ((cur, 4 :: ns) :: (cur, 5 :: ns) :: stk) seen out) ∧
      (∀ (f1 f2 : Nat) (cur : List String) (ns : List Nat) (rawL rawR : List String),
        run_raw a' f1 [(cur, 4 :: ns)] = .ok rawL →
        run_raw a' f2 [(cur, 5 :: ns)] = .ok rawR →
        run_raw a' (f1 + f2 + 1) [(cur, 2 :: ns)] = .ok (rawL ++ rawR)) ∧
      (∀ (g : Nat) (res : List String) (f1 f2 : Nat) (cur : List String)
          (ns : List Nat) (rawL rawR : List String),
        run_stack a' g [(cur, 2 :: ns)] [] [] = .ok res →
        run_raw a' f1 [(cur, 4 :: ns)] = .ok rawL →
        run_raw a' f2 [(cur, 5 :: ns)] = .ok rawR →
        res.toFinset = rawL.toFinset ∪ rawR.toFinset) :=
  C6_pipe_two_alternatives c6Rules c6Arena 2 0 (by decide) (by decide) (by decide)
    (by rfl) (by rfl) (by decide) (by decide)

theorem mem_of_getElem?_eq {α : Type} {l : List α} {n : Nat} {x : α}
    (h : l[n]? = some x) : x ∈ l := by
  have h2 : n < l.length := by
    by_contra hn
    rw [List.getElem?_eq_none (by omega)] at h
    exact Option.noConfusion h
  rw [List.getElem?_eq_getElem h2] at h
  injection h with h3
  rw [← h3]
  exact List.getElem_mem h2

theorem contentGood_getT {rules : Rules} {a : Arena} (hg : ArenaGood rules a) (n : Nat) :
    ContentGood rules (getT a n).content := by
  unfold getT
  rw [List.getD_eq_getElem?_getD]
  cases hx : a[n]? with
  | none => trivial
  | some t =>
    have hm : t ∈ a := mem_of_getElem?_eq hx
    exact hg t hm

theorem setChildren_arenaGood {rules : Rules} {a : Arena} (hg : ArenaGood rules a)
    (i : Nat) (cs : List Nat) : ArenaGood rules (setChildren a i cs) := by
  intro nd hnd
  rcases List.mem_or_eq_of_mem_set hnd with hm | rfl
  · exact hg nd hm
  · exact contentGood_getT hg i

theorem setParent_arenaGood {rules : Rules} {a : Arena} (hg : ArenaGood rules a)
    (i p : Nat) : ArenaGood rules (setParent a i p) := by
  intro nd hnd
  rcases List.mem_or_eq_of_mem_set hnd with hm | rfl
  · exact hg nd hm
  · exact contentGood_getT hg i

theorem foldl_setParent_arenaGood {rules : Rules} (l : List Nat) (pid : Nat) :
    ∀ {a : Arena}, ArenaGood rules a →
      ArenaGood rules (l.foldl (fun acc cid => setParent acc cid pid) a) := by
  induction l with
  | nil => intro a hg; exact hg
  | cons x xs ih =>
    intro a hg
    rw [List.foldl_cons]
    exact ih (setParent_arenaGood hg x pid)

theorem append_arenaGood {rules : Rules} {a b : Arena} (hg : ArenaGood rules a)
    (hb : ∀ nd ∈ b, ContentGood rules nd.content) : ArenaGood rules (a ++ b) := by
  intro nd hnd
  rcases List.mem_append.mp hnd with hm | hm
  · exact hg nd hm
  · exact hb nd hm

theorem lookupA_mem {α : Type} {l : List (String × α)} {n : String} {v : α}
    (h : lookupA l n = some v) : (n, v) ∈ l := by
  induction l with
  | nil => simp [lookupA] at h
  | cons p rest ih =>
    rw [lookupA] at h
    by_cases hp : p.1 = n
    · rw [if_pos hp] at h
      injection h with h2
      have hp2 : p = (n, v) := Prod.ext hp h2
      rw [← hp2]
      exact List.mem_cons_self p rest
    · rw [if_neg hp] at h
      exact List.mem_cons_of_mem p (ih h)

theorem mem_tokensOf {rules : Rules} {name : String} {production : List Token}
    (h : lookupA rules name = some production) :
    ∀ t ∈ production, t ∈ tokensOf rules := by
  intro t ht
  unfold tokensOf
  rw [List.mem_flatten]
  exact ⟨production, List.mem_map_of_mem Prod.snd (lookupA_mem h), ht⟩

theorem expand_nonterminal_eq (rules : Rules) (a : Arena) (i : Nat) (nm : String)
    (production : List Token)
    (hc : (getT a i).content = .tok (.nonterminal nm))
    (hl : lookupA rules nm = some production) :
    expand rules a i = .ok
      (setChildren (a ++ production.map (fun t => ⟨.tok t, some i, []⟩)) i
        ((List.range production.length).map (fun j => a.length + j)), true) := by
  simp only [expand, hc, hl]

theorem expand_nonterminal_none (rules : Rules) (a : Arena) (i : Nat) (nm : String)
    (hc : (getT a i).content = .tok (.nonterminal nm))
    (hl : lookupA rules nm = none) :
    expand rules a i = .error .keyError := by
  simp only [expand, hc, hl]

theorem expand_control_noparent (rules : Rules) (a : Arena) (i : Nat) (sym : Char)
    (hc : (getT a i).content = .tok (.control sym))
    (hp : (getT a i).parent = none) :
    expand rules a i = .error .attributeError := by
  simp only [expand, hc, hp]

theorem expand_control_notmem (rules : Rules) (a : Arena) (i p : Nat) (sym : Char)
    (hc : (getT a i).content = .tok (.control sym))
    (hp : (getT a i).parent = some p)
    (hm : i ∉ (getT a p).children) :
    expand rules a i = .error .valueError := by
  simp only [expand, hc, hp]
  rw [if_neg hm]

theorem expand_opt_none (rules : Rules) (a : Arena) (i p : Nat)
    (hc : (getT a i).content = .tok (.control '?'))
    (hp : (getT a i).parent = some p)
    (hm : i ∈ (getT a p).children)
    (ho : (getT a p).children.get? ((getT a p).children.indexOf i + 1) = none) :
    expand rules a i = .error .indexError := by
  simp only [expand, hc, hp]
  rw [if_pos hm, if_true, ho]

theorem expand_opt_eq (rules : Rules) (a : Arena) (i p optId : Nat)
    (hc : (getT a i).content = .tok (.control '?'))
    (hp : (getT a i).parent = some p)
    (hm : i ∈ (getT a p).children)
    (ho : (getT a p).children.get? ((getT a p).children.indexOf i + 1) = some optId) :
    expand rules a i = .ok
      (setChildren
        ((setParent
            (setChildren a p
              ((getT a p).children.eraseIdx ((getT a p).children.indexOf i + 1)))
            optId i) ++ [⟨.nothing, some i, []⟩]) i
        [optId,
          (setParent
            (setChildren a p
              ((getT a p).children.eraseIdx ((getT a p).children.indexOf i + 1)))
            optId i).length], true) := by
  simp only [expand, hc, hp]
  rw [if_pos hm, if_true, ho]

theorem expand_pipe_eq (rules : Rules) (a : Arena) (i p : Nat)
    (hc : (getT a i).content = .tok (.control '|'))
    (hp : (getT a i).parent = some p)
    (hm : i ∈ (getT a p).children) :
    expand rules a i = .ok
      (setChildren
        (setChildren
          (((getT a p).children.drop ((getT a p).children.indexOf i + 1)).foldl
            (fun acc cid => setParent acc cid (a.length + 1))
            (((getT a p).children.take ((getT a p).children.indexOf i)).foldl
              (fun acc cid => setParent acc cid a.length)
              (a ++ [⟨.mark true, some i,
                  (getT a p).children.take ((getT a p).children.indexOf i)⟩,
                ⟨.mark false, some i,
                  (getT a p).children.drop ((getT a p).children.indexOf i + 1)⟩])))
          p [i]) i [a.length, a.length + 1], true) := by
  simp only [expand, hc, hp]
  rw [if_pos hm, if_neg (show ¬(('|' : Char) = '?') from by decide), if_true]

theorem expand_assert (rules : Rules) (a : Arena) (i p : Nat) (sym : Char)
    (hc : (getT a i).content = .tok (.control sym))
    (hp : (getT a i).parent = some p)
    (hm : i ∈ (getT a p).children)
    (h7 : sym ≠ '?') (h8 : sym ≠ '|') :
    expand rules a i = .error .assertionError := by
  simp only [expand, hc, hp]
  rw [if_pos hm, if_neg h7, if_neg h8]

theorem expand_noexpand_eq (rules : Rules) (a : Arena) (i : Nat)
    (hc : (∃ text, (getT a i).content = .tok (.literal text)) ∨
      (∃ key, (getT a i).content = .tok (.dblookup key)) ∨
      (∃ b, (getT a i).content = .mark b) ∨ (getT a i).content = .nothing) :
    expand rules a i = .ok (a, false) := by
  rcases hc with ⟨text, hc⟩ | ⟨key, hc⟩ | ⟨b, hc⟩ | hc <;> simp only [expand, hc]

theorem expand_arenaGood {rules : Rules} {a : Arena} {i : Nat} {a' : Arena} {exp : Bool}
    (hg : ArenaGood rules a) (h : expand rules a i = .ok (a', exp)) :
    ArenaGood rules a' := by
  cases hc : (getT a i).content with
  | tok t =>
    cases t with
    | nonterminal nm =>
      cases hl : lookupA rules nm with
      | none =>
        rw [expand_nonterminal_none rules a i nm hc hl] at h
        exact absurd h (by simp)
      | some production =>
        rw [expand_nonterminal_eq rules a i nm production hc hl] at h
        injection h with h2
        have h3 := congrArg Prod.fst h2
        simp only [] at h3
        rw [← h3]
        refine setChildren_arenaGood (append_arenaGood hg ?_) _ _
        intro nd hnd
        rw [List.mem_map] at hnd
        obtain ⟨tk, htk, rfl⟩ := hnd
        have hmem := mem_tokensOf hl tk htk
        cases tk <;> trivial
    | literal text =>
      rw [expand_noexpand_eq rules a i (Or.inl ⟨text, hc⟩)] at h
      injection h with h2
      have h3 := congrArg Prod.fst h2
      simp only [] at h3
      rw [← h3]
      exact hg
    | dblookup key =>
      rw [expand_noexpand_eq rules a i (Or.inr (Or.inl ⟨key, hc⟩))] at h
      injection h with h2
      have h3 := congrArg Prod.fst h2
      simp only [] at h3
      rw [← h3]
      exact hg
    | control sym =>
      cases hp2 : (getT a i).parent with
      | none =>
        rw [expand_control_noparent rules a i sym hc hp2] at h
        exact absurd h (by simp)
      | some p =>
        by_cases hm : i ∈ (getT a p).children
        · by_cases h7 : sym = '?'
          · subst h7
            cases ho : (getT a p).children.get? ((getT a p).children.indexOf i + 1) with
            | none =>
              rw [expand_opt_none rules a i p hc hp2 hm ho] at h
              exact absurd h (by simp)
            | some optId =>
              rw [expand_opt_eq rules a i p optId hc hp2 hm ho] at h
              injection h with h2
              have h3 := congrArg Prod.fst h2
              simp only [] at h3
              rw [← h3]
              refine setChildren_arenaGood (append_arenaGood
                (setParent_arenaGood (setChildren_arenaGood hg _ _) _ _) ?_) _ _
              intro nd hnd
              rw [List.mem_singleton] at hnd
              subst hnd
              trivial
          · by_cases h8 : sym = '|'
            · subst h8
              rw [expand_pipe_eq rules a i p hc hp2 hm] at h
              injection h with h2
              have h3 := congrArg Prod.fst h2
              simp only [] at h3
              rw [← h3]
              refine setChildren_arenaGood (setChildren_arenaGood
                (foldl_setParent_arenaGood _ _ (foldl_setParent_arenaGood _ _
                  (append_arenaGood hg ?_))) _ _) _ _
              intro nd hnd
              rcases List.mem_cons.mp hnd with rfl | hnd
              · trivial
              · rw [List.mem_singleton] at hnd
                subst hnd
                trivial
            · rw [expand_assert rules a i p sym hc hp2 hm h7 h8] at h
              exact absurd h (by simp)
        · rw [expand_control_notmem rules a i p sym hc hp2 hm] at h
          exact absurd h (by simp)
  | mark b =>
    rw [expand_noexpand_eq rules a i (Or.inr (Or.inr (Or.inl ⟨b, hc⟩)))] at h
    injection h with h2
    have h3 := congrArg Prod.fst h2
    simp only [] at h3
    rw [← h3]
    exact hg
  | nothing =>
    rw [expand_noexpand_eq rules a i (Or.inr (Or.inr (Or.inr hc)))] at h
    injection h with h2
    have h3 := congrArg Prod.fst h2
    simp only [] at h3
    rw [← h3]
    exact hg

theorem bfs_pass_arenaGood (rules : Rules) :
    ∀ (fuel : Nat) (a : Arena) (queue : List Nat) (allT : Bool) (a' : Arena) (allT' : Bool),
      bfs_pass rules fuel a queue allT = .ok (a', allT') →
      ArenaGood rules a → ArenaGood rules a' := by
  intro fuel
  induction fuel with
  | zero =>
    intro a q allT a' allT' h
    rw [bfs_pass.eq_def] at h
    exact absurd h (by simp)
  | succ f ih =>
    intro a q allT a' allT' h hg
    match q with
    | [] =>
      replace h : (Except.ok (a, allT) : Except ExpErr (Arena × Bool)) = .ok (a', allT') := h
      injection h with h2
      have h3 := congrArg Prod.fst h2
      simp only [] at h3
      rw [← h3]
      exact hg
    | n :: rest =>
      rw [bfs_pass.eq_def] at h
      simp only [] at h
      by_cases hch : (getT a n).children.isEmpty = true
      · rw [if_pos hch] at h
        cases hexp : expand rules a n with
        | error e =>
          rw [hexp] at h
          exact absurd h (by simp)
        | ok pr =>
          obtain ⟨a2, dE⟩ := pr
          rw [hexp] at h
          replace h : bfs_pass rules f a2 (rest ++ (getT a2 n).children) (allT && !dE) =
            .ok (a', allT') := h
          exact ih a2 _ _ a' allT' h (expand_arenaGood hg hexp)
      · rw [if_neg hch] at h
        exact ih a _ _ a' allT' h hg

theorem expand_fix_arenaGood (rules : Rules) :
    ∀ (passes stepFuel : Nat) (a a' : Arena),
      expand_fix rules passes stepFuel a = .ok a' → ArenaGood rules a →
      ArenaGood rules a' := by
  intro passes
  induction passes with
  | zero =>
    intro stepFuel a a' h
    rw [expand_fix.eq_def] at h
    exact absurd h (by simp)
  | succ pss ih =>
    intro stepFuel a a' h hg
    rw [expand_fix.eq_def] at h
    simp only [] at h
    cases hb : bfs_pass rules stepFuel a [0] true with
    | error e =>
      rw [hb] at h
      exact absurd h (by simp)
    | ok pr =>
      obtain ⟨a2, allT⟩ := pr
      rw [hb] at h
      replace h : (if allT = true then Except.ok a2
        else expand_fix rules pss stepFuel a2) = .ok a' := h
      have hg2 := bfs_pass_arenaGood rules stepFuel a [0] true a2 allT hb hg
      by_cases hT : allT = true
      · rw [if_pos hT] at h
        injection h with h2
        rw [← h2]
        exact hg2
      · rw [if_neg hT] at h
        exact ih stepFuel a2 a' h hg2

theorem dedupNew_subset : ∀ (seen raw : List String), dedupNew seen raw ⊆ raw := by
  intro seen raw
  induction raw generalizing seen with
  | nil => intro x hx; exact absurd hx (by simp [dedupNew])
  | cons s rest ih =>
    intro x hx
    rw [dedupNew] at hx
    by_cases hs : s ∈ seen
    · rw [if_pos hs] at hx
      exact List.mem_cons_of_mem s (ih seen hx)
    · rw [if_neg hs] at hx
      rcases List.mem_cons.mp hx with rfl | hx
      · exact List.mem_cons_self x rest
      · exact List.mem_cons_of_mem s (ih (s :: seen) hx)

theorem run_raw_pieces (a : Arena) (rules : Rules) (hg : ArenaGood rules a) :
    ∀ (f : Nat) (frames : List (List String × List Nat)) (raw : List String),
      run_raw a f frames = .ok raw →
      (∀ fr ∈ frames, ∀ piece ∈ fr.1, GoodPiece rules piece) →
      ∀ s ∈ raw, ∃ ps, (∀ piece ∈ ps, GoodPiece rules piece) ∧ s = joinAll ps := by
  intro f
  induction f with
  | zero =>
    intro frames raw h
    rw [run_raw_zero] at h
    exact absurd h (by simp)
  | succ f ih =>
    intro frames raw h hfr
    match frames with
    | [] =>
      replace h : (Except.ok [] : Except ExpErr (List String)) = .ok raw := h
      have : raw = [] := by simpa using h.symm
      subst this
      intro s hs
      exact absurd hs (by simp)
    | (cur, []) :: stk =>
      cases hrec : run_raw a f stk with
      | error e =>
        rw [run_raw_emit_err a f cur stk e hrec] at h
        exact absurd h (by simp)
      | ok rest =>
        rw [run_raw_emit_ok a f cur stk rest hrec] at h
        have hraw : raw = joinAll cur :: rest := by simpa using h.symm
        subst hraw
        intro s hs
        rcases List.mem_cons.mp hs with rfl | hs
        · exact ⟨cur, hfr (cur, []) (List.mem_cons_self _ _), rfl⟩
        · exact ih stk rest hrec (fun fr hf => hfr fr (List.mem_cons_of_mem _ hf)) s hs
    | (cur, n :: ns) :: stk =>
      rw [run_raw.eq_def] at h
      simp only [] at h
      cases hc : (getT a n).content with
      | tok t =>
        cases t with
        | literal text =>
          rw [hc] at h
          replace h : (if (getT a n).children.isEmpty = true
              then run_raw a f ((cur ++ [escape_brackets text], ns) :: stk)
              else Except.error ExpErr.assertionError) = Except.ok raw := h
          by_cases hch : (getT a n).children.isEmpty = true
          · rw [if_pos hch] at h
            refine ih _ _ h ?_
            intro fr hf
            rcases List.mem_cons.mp hf with rfl | hf
            · intro piece hpc
              rcases List.mem_append.mp hpc with hpc | hpc
              · exact hfr (cur, n :: ns) (List.mem_cons_self _ _) piece hpc
              · rw [List.mem_singleton] at hpc
                subst hpc
                left
                refine ⟨text, ?_, rfl⟩
                have := contentGood_getT hg n
                rw [hc] at this
                exact this
            · exact hfr fr (List.mem_cons_of_mem _ hf)
          · rw [if_neg hch] at h
            exact absurd h (by simp)
        | dblookup key =>
          rw [hc] at h
          replace h : (if (getT a n).children.isEmpty = true
              then run_raw a f ((cur ++ ["[" ++ key ++ "]"], ns) :: stk)
              else Except.error ExpErr.assertionError) = Except.ok raw := h
          by_cases hch : (getT a n).children.isEmpty = true
          · rw [if_pos hch] at h
            refine ih _ _ h ?_
            intro fr hf
            rcases List.mem_cons.mp hf with rfl | hf
            · intro piece hpc
              rcases List.mem_append.mp hpc with hpc | hpc
              · exact hfr (cur, n :: ns) (List.mem_cons_self _ _) piece hpc
              · rw [List.mem_singleton] at hpc
                subst hpc
                right
                refine ⟨key, ?_, rfl⟩
                have := contentGood_getT hg n
                rw [hc] at this
                exact this
            · exact hfr fr (List.mem_cons_of_mem _ hf)
          · rw [if_neg hch] at h
            exact absurd h (by simp)
        | control sym =>
          rw [hc] at h
          cases hch : (getT a n).children with
          | nil =>
            rw [hch] at h
            replace h : (Except.error ExpErr.valueError : Except ExpErr (List String)) =
              Except.ok raw := h
            exact absurd h (by simp)
          | cons oa rest =>
            cases rest with
            | nil =>
              rw [hch] at h
              replace h : (Except.error ExpErr.valueError : Except ExpErr (List String)) =
                Except.ok raw := h
              exact absurd h (by simp)
            | cons ob rest2 =>
              cases rest2 with
              | nil =>
                rw [hch] at h
                replace h : run_raw a f ((cur, oa :: ns) :: (cur, ob :: ns) :: stk) =
                  Except.ok raw := h
                refine ih _ _ h ?_
                intro fr hf
                rcases List.mem_cons.mp hf with rfl | hf
                · exact hfr (cur, n :: ns) (List.mem_cons_self _ _)
                rcases List.mem_cons.mp hf with rfl | hf
                · exact hfr (cur, n :: ns) (List.mem_cons_self _ _)
                · exact hfr fr (List.mem_cons_of_mem _ hf)
              | cons z rest3 =>
                rw [hch] at h
                replace h : (Except.error ExpErr.valueError : Except ExpErr (List String)) =
                  Except.ok raw := h
                exact absurd h (by simp)
        | nonterminal nm =>
          rw [hc] at h
          replace h : run_raw a f ((cur, (getT a n).children ++ ns) :: stk) = Except.ok raw := h
          refine ih _ _ h ?_
          intro fr hf
          rcases List.mem_cons.mp hf with rfl | hf
          · exact hfr (cur, n :: ns) (List.mem_cons_self _ _)
          · exact hfr fr (List.mem_cons_of_mem _ hf)
      | mark b =>
        rw [hc] at h
        replace h : run_raw a f ((cur, (getT a n).children ++ ns) :: stk) = Except.ok raw := h
        refine ih _ _ h ?_
        intro fr hf
        rcases List.mem_cons.mp hf with rfl | hf
        · exact hfr (cur, n :: ns) (List.mem_cons_self _ _)
        · exact hfr fr (List.mem_cons_of_mem _ hf)
      | nothing =>
        rw [hc] at h
        replace h : run_raw a f ((cur, (getT a n).children ++ ns) :: stk) = Except.ok raw := h
        refine ih _ _ h ?_
        intro fr hf
        rcases List.mem_cons.mp hf with rfl | hf
        · exact hfr (cur, n :: ns) (List.mem_cons_self _ _)
        · exact hfr fr (List.mem_cons_of_mem _ hf)

theorem all_terminals_pieces (rules : Rules) (p q r : Nat) (res : List String)
    (h : all_terminals rules p q r = .ok res) :
    ∀ s ∈ res, ∃ ps, (∀ piece ∈ ps, GoodPiece rules piece) ∧ s = joinAll ps := by
  unfold all_terminals at h
  cases hfix : expand_fix rules p q [⟨.tok (.nonterminal INITIAL), none, []⟩] with
  | error e =>
    rw [hfix] at h
    exact absurd h (by simp)
  | ok a =>
    rw [hfix] at h
    have hg : ArenaGood rules a := by
      refine expand_fix_arenaGood rules p q _ a hfix ?_
      intro nd hnd
      rw [List.mem_singleton] at hnd
      subst hnd
      trivial
    replace h : run_stack a r [([], [0])] [] [] = .ok res := h
    rw [run_stack_eq_dedup] at h
    cases hraw : run_raw a r [([], [0])] with
    | error e =>
      rw [hraw] at h
      exact absurd h (by simp [Except.map])
    | ok raw =>
      rw [hraw] at h
      have hres : res = dedupNew [] raw := by simpa [Except.map] using h.symm
      intro s hs
      rw [hres] at hs
      have hs2 : s ∈ raw := dedupNew_subset [] raw hs
      refine run_raw_pieces a rules hg r _ raw hraw ?_ s hs2
      intro fr hf
      rw [List.mem_singleton] at hf
      subst hf
      intro piece hpc
      exact absurd hpc (by simp)

theorem foldl_append_data : ∀ (l : List String) (s : String),
    (l.foldl (fun acc t => acc ++ t) s).data = s.data ++ (l.map String.data).flatten := by
  intro l
  induction l with
  | nil => intro s; simp
  | cons t ts ih =>
    intro s
    rw [List.foldl_cons, ih (s ++ t), String.data_append]
    simp

theorem joinAll_data (l : List String) :
    (joinAll l).data = (l.map String.data).flatten := by
  unfold joinAll
  rw [foldl_append_data]
  rfl

theorem escapeBracketsL_append : ∀ (l1 l2 : List Char),
    escapeBracketsL (l1 ++ l2) = escapeBracketsL l1 ++ escapeBracketsL l2 := by
  intro l1 l2
  induction l1 with
  | nil => rfl
  | cons c cs ih =>
    rw [List.cons_append, escapeBracketsL, escapeBracketsL]
    by_cases h1 : c = '['
    · rw [if_pos h1, if_pos h1, ih]
      rfl
    · rw [if_neg h1, if_neg h1]
      by_cases h2 : c = ']'
      · rw [if_pos h2, if_pos h2, ih]
        rfl
      · rw [if_neg h2, if_neg h2, ih]
        rfl

theorem reflattenL_append (xs ys : List Token) :
    reflattenL (xs ++ ys) = reflattenL xs ++ reflattenL ys := by
  simp [reflattenL]

theorem string_eq_of_data {a b : String} (h : a.data = b.data) : a = b := by
  cases a
  cases b
  simp_all

theorem reflatten_data (ts : List Token) : (reflatten ts).data = reflattenL ts := by
  unfold reflatten reflattenL
  rw [joinAll_data, List.map_map]
  refine congrArg List.flatten ?_
  refine List.map_congr_left ?_
  intro t _
  cases t with
  | literal text => rfl
  | dblookup key => simp [tokenFlatL, String.data_append]
  | nonterminal nm => rfl
  | control sym => rfl

theorem pt_step_escape_push (cs : List Char) (st : PState) (olds : List PState)
    (cur : List Char) (toks : List Token) (hne : st ≠ .escapingSomething) :
    parse_terminals_aux ('\\' :: cs) st olds cur toks =
      parse_terminals_aux cs .escapingSomething (st :: olds) cur toks := by
  rw [parse_terminals_aux.eq_def]
  simp only []
  rw [if_neg hne, if_true]

theorem pt_step_escape_pop (cs : List Char) (o : PState) (olds : List PState)
    (cur : List Char) (toks : List Token) (c : Char) :
    parse_terminals_aux (c :: cs) .escapingSomething (o :: olds) cur toks =
      parse_terminals_aux cs o olds (cur ++ [c]) toks := by
  rw [parse_terminals_aux.eq_def]
  simp only []
  rw [if_true]

theorem pt_step_lit_char (cs : List Char) (cur : List Char) (toks : List Token)
    (c : Char) (h1 : c ≠ '\\') (h2 : c ≠ '[') :
    parse_terminals_aux (c :: cs) .insideLiteral [] cur toks =
      parse_terminals_aux cs .insideLiteral [] (cur ++ [c]) toks := by
  rw [parse_terminals_aux.eq_def]
  simp only []
  rw [if_neg (show PState.insideLiteral ≠ PState.escapingSomething from by decide),
    if_neg h1, if_true, if_neg h2]

theorem pt_step_lit_open (cs : List Char) (cur : List Char) (toks : List Token) :
    parse_terminals_aux ('[' :: cs) .insideLiteral [] cur toks =
      parse_terminals_aux cs .insideDBLookup [] [] (toks ++ [.literal (String.mk cur)]) := by
  rw [parse_terminals_aux.eq_def]
  simp only []
  rw [if_neg (show PState.insideLiteral ≠ PState.escapingSomething from by decide),
    if_neg (show ('[' : Char) ≠ '\\' from by decide), if_true, if_true]

theorem pt_step_db_char (cs : List Char) (cur : List Char) (toks : List Token)
    (c : Char) (h1 : c ≠ '\\') (h2 : c ≠ ']') :
    parse_terminals_aux (c :: cs) .insideDBLookup [] cur toks =
      parse_terminals_aux cs .insideDBLookup [] (cur ++ [c]) toks := by
  rw [parse_terminals_aux.eq_def]
  simp only []
  rw [if_neg (show PState.insideDBLookup ≠ PState.escapingSomething from by decide),
    if_neg h1,
    if_neg (show PState.insideDBLookup ≠ PState.insideLiteral from by decide),
    if_true, if_neg h2]

theorem pt_step_db_close (cs : List Char) (cur : List Char) (toks : List Token) :
    parse_terminals_aux (']' :: cs) .insideDBLookup [] cur toks =
      parse_terminals_aux cs .insideLiteral [] [] (toks ++ [.dblookup (String.mk cur)]) := by
  rw [parse_terminals_aux.eq_def]
  simp only []
  rw [if_neg (show PState.insideDBLookup ≠ PState.escapingSomething from by decide),
    if_neg (show (']' : Char) ≠ '\\' from by decide),
    if_neg (show PState.insideDBLookup ≠ PState.insideLiteral from by decide),
    if_true, if_true]

theorem decode_lit_piece : ∀ (l : List Char), (∀ c ∈ l, c ≠ '\\') →
    ∀ (rest cur : List Char) (toks : List Token),
      parse_terminals_aux (escapeBracketsL l ++ rest) .insideLiteral [] cur toks =
        parse_terminals_aux rest .insideLiteral [] (cur ++ l) toks := by
  intro l
  induction l with
  | nil =>
    intro _ rest cur toks
    simp [escapeBracketsL]
  | cons c cs ih =>
    intro hcl rest cur toks
    have hc : c ≠ '\\' := hcl c (List.mem_cons_self c cs)
    have hcs : ∀ x ∈ cs, x ≠ '\\' := fun x hx => hcl x (List.mem_cons_of_mem c hx)
    by_cases h1 : c = '['
    · subst h1
      rw [show escapeBracketsL ('[' :: cs) = '\\' :: '[' :: escapeBracketsL cs from rfl,
        List.cons_append, List.cons_append,
        pt_step_escape_push _ _ _ _ _ (by decide),
        pt_step_escape_pop, ih hcs rest (cur ++ ['[']) toks, List.append_assoc]
      rfl
    · by_cases h2 : c = ']'
      · subst h2
        rw [show escapeBracketsL (']' :: cs) = '\\' :: ']' :: escapeBracketsL cs from rfl,
          List.cons_append, List.cons_append,
          pt_step_escape_push _ _ _ _ _ (by decide),
          pt_step_escape_pop, ih hcs rest (cur ++ [']']) toks, List.append_assoc]
        rfl
      · rw [escapeBracketsL, if_neg h1, if_neg h2, List.cons_append,
          pt_step_lit_char _ _ _ c hc h1, ih hcs rest (cur ++ [c]) toks,
          List.append_assoc]
        rfl

theorem decode_db_key : ∀ (k : List Char), (∀ x ∈ k, x ≠ '\\' ∧ x ≠ ']') →
    ∀ (rest cur : List Char) (toks : List Token),
      parse_terminals_aux (k ++ (']' :: rest)) .insideDBLookup [] cur toks =
        parse_terminals_aux rest .insideLiteral [] []
          (toks ++ [.dblookup (String.mk (cur ++ k))]) := by
  intro k
  induction k with
  | nil =>
    intro _ rest cur toks
    rw [List.nil_append, pt_step_db_close, List.append_nil]
  | cons c ks ih =>
    intro hkc rest cur toks
    have hc := hkc c (List.mem_cons_self c ks)
    have hks : ∀ x ∈ ks, x ≠ '\\' ∧ x ≠ ']' := fun x hx => hkc x (List.mem_cons_of_mem c hx)
    rw [List.cons_append, pt_step_db_char _ _ _ c hc.1 hc.2,
      ih hks rest (cur ++ [c]) toks, List.append_assoc]
    rfl

theorem decode_db_piece (k : List Char) (hk : ∀ x ∈ k, x ≠ '\\' ∧ x ≠ ']')
    (rest cur : List Char) (toks : List Token) :
    parse_terminals_aux ('[' :: (k ++ (']' :: rest))) .insideLiteral [] cur toks =
      parse_terminals_aux rest .insideLiteral [] []
        (toks ++ [.literal (String.mk cur), .dblookup (String.mk k)]) := by
  have h := decode_db_key k hk rest [] (toks ++ [Token.literal (String.mk cur)])
  rw [pt_step_lit_open, h, List.nil_append, List.append_assoc]
  rfl

theorem decode_clean_pieces : ∀ (ps : List String),
    (∀ piece ∈ ps,
      (∃ l : String, (∀ c ∈ l.data, c ≠ '\\') ∧ piece = escape_brackets l) ∨
      (∃ k : String, (∀ c ∈ k.data, c ≠ '\\' ∧ c ≠ ']') ∧ piece = "[" ++ k ++ "]")) →
    ∀ (cur : List Char) (toks : List Token),
      ∃ TS, parse_terminals_aux ((ps.map String.data).flatten) .insideLiteral [] cur toks =
          .ok TS ∧
        reflattenL TS = reflattenL toks ++ escapeBracketsL cur ++
          (ps.map String.data).flatten := by
  intro ps
  induction ps with
  | nil =>
    intro _ cur toks
    refine ⟨toks ++ [Token.literal (String.mk cur)], ?_, ?_⟩
    · simp only [List.map_nil, List.flatten_nil]
      rfl
    · rw [reflattenL_append]
      simp [reflattenL, tokenFlatL]
  | cons p ps ih =>
    intro hps cur toks
    have hp := hps p (List.mem_cons_self p ps)
    have hrest := fun x hx => hps x (List.mem_cons_of_mem p hx)
    rcases hp with ⟨l, hlc, rfl⟩ | ⟨k, hkc, rfl⟩
    · rw [List.map_cons, List.flatten_cons,
        show (escape_brackets l).data = escapeBracketsL l.data from rfl,
        decode_lit_piece l.data hlc _ cur toks]
      obtain ⟨TS, hTS, href⟩ := ih hrest (cur ++ l.data) toks
      refine ⟨TS, hTS, ?_⟩
      rw [href, escapeBracketsL_append]
      simp [List.append_assoc]
    · have hdata : ("[" ++ k ++ "]").data ++ (ps.map String.data).flatten =
          '[' :: (k.data ++ (']' :: (ps.map String.data).flatten)) := by
        simp [String.data_append]
      rw [List.map_cons, List.flatten_cons, hdata,
        decode_db_piece k.data hkc _ cur toks]
      obtain ⟨TS, hTS, href⟩ :=
        ih hrest [] (toks ++ [.literal (String.mk cur), .dblookup (String.mk k.data)])
      refine ⟨TS, hTS, ?_⟩
      rw [href, reflattenL_append]
      have hmk : String.mk k.data = k := rfl
      simp [reflattenL, tokenFlatL, String.data_append, escapeBracketsL,
        List.append_assoc]

theorem cleanRules_good_shape {rules : Rules} (hclean : cleanRules rules = true)
    {s : String} (hg : GoodPiece rules s) :
    (∃ l : String, (∀ c ∈ l.data, c ≠ '\\') ∧ s = escape_brackets l) ∨
    (∃ k : String, (∀ c ∈ k.data, c ≠ '\\' ∧ c ≠ ']') ∧ s = "[" ++ k ++ "]") := by
  unfold cleanRules at hclean
  rw [List.all_eq_true] at hclean
  rcases hg with ⟨l, hl, rfl⟩ | ⟨k, hk, rfl⟩
  · left
    refine ⟨l, ?_, rfl⟩
    have h2 := hclean _ hl
    replace h2 : (!(l.data.contains '\\')) = true := h2
    have h3 : '\\' ∉ l.data := by simpa using h2
    intro c hc hcc
    subst hcc
    exact h3 hc
  · right
    refine ⟨k, ?_, rfl⟩
    have h2 := hclean _ hk
    replace h2 : (!(k.data.contains '\\') && !(k.data.contains ']')) = true := h2
    rw [Bool.and_eq_true] at h2
    have h3 : '\\' ∉ k.data := by simpa using h2.1
    have h4 : ']' ∉ k.data := by simpa using h2.2
    intro c hc
    constructor
    · intro hcc
      subst hcc
      exact h3 hc
    · intro hcc
      subst hcc
      exact h4 hc

/-- C3 (counterexample): a literal containing a backslash breaks the
round trip.  With the one-rule set `RESULT = "a\\"` the enumerator
yields the string `a\\` unescaped, and decoding it fails: the trailing
backslash leaves the codec in the escaping state at end of input, which
raises `ParseError` with got `EOL`. -/
theorem C3_backslash_literal_breaks_roundtrip :
    all_terminals c3bsRules 10 50 50 = .ok ["a\\"] ∧
    parse_terminals ("a\\") = .error ⟨"EOL", none⟩ := ⟨rfl, rfl⟩

/-- C3 (amended): for rule sets whose literals contain no backslash and
whose lookup keys contain no backslash and no closing bracket, the round
trip holds: every string yielded by `all_terminals` decodes successfully
with `parse_terminals`, and re-flattening the decoded token sequence
(each literal re-escaped with `escape_brackets`, each lookup re-bracketed)
reproduces the string exactly. -/
theorem C3_roundtrip_on_clean_rules (rules : Rules) (p q r : Nat)
    (res : List String) (s : String) (hclean : cleanRules rules = true)
    (h : all_terminals rules p q r = .ok res) (hs : s ∈ res) :
    ∃ ts, parse_terminals s = .ok ts ∧ reflatten ts = s := by
  obtain ⟨ps, hps, rfl⟩ := all_terminals_pieces rules p q r res h s hs
  have hshapes := fun piece hpc => cleanRules_good_shape hclean (hps piece hpc)
  obtain ⟨TS, hTS, href⟩ := decode_clean_pieces ps hshapes [] []
  refine ⟨TS, ?_, ?_⟩
  · show parse_terminals_aux (joinAll ps).data .insideLiteral [] [] [] = .ok TS
    rw [joinAll_data]
    exact hTS
  · apply string_eq_of_data
    rw [reflatten_data, href, joinAll_data]
    simp [reflattenL, escapeBracketsL]

theorem C3_roundtrip_on_clean_rules_witness :
    cleanRules c3okRules = true ∧
    all_terminals c3okRules 10 50 50 = .ok ["a[N]"] ∧
    ∃ ts, parse_terminals ("a[N]") = .ok ts ∧ reflatten ts = "a[N]" :=
  ⟨rfl, rfl,
    C3_roundtrip_on_clean_rules c3okRules 10 50 50 ["a[N]"] ("a[N]") rfl rfl
      (List.mem_singleton.mpr rfl)⟩

/-- C10: whenever `parse_terminals` returns without raising, its
result is a non-empty token list that starts and ends with a Literal
and strictly alternates Literal and DBLookup tokens (the shape
`Literal (DBLookup Literal)*`), so it never contains two adjacent
Literal or two adjacent DBLookup tokens. -/
theorem C10_parse_terminals_alternates (s : String) (res : List Token)
    (h : parse_terminals s = .ok res) : chainLD res = true ∧ res ≠ [] := by
  have hc : chainLD res = true :=
    pt_aux_chain s.data .insideLiteral [] [] [] res h
      ⟨fun x hx => absurd hx (List.not_mem_nil x), rfl⟩
  refine ⟨hc, ?_⟩
  intro hnil
  rw [hnil] at hc
  exact Bool.noConfusion hc

/-- C10 (witness): at the concrete input `"a\[x\] [N]b"`. -/
theorem C10_parse_terminals_alternates_witness :
    parse_terminals ("a[N]b") = .ok [.literal "a", .dblookup "N", .literal "b"] ∧
    chainLD [.literal "a", .dblookup "N", .literal "b"] = true ∧
    ([Token.literal "a", .dblookup "N", .literal "b"] : List Token) ≠ [] := by
  refine ⟨by rfl, ?_, ?_⟩
  · exact (C10_parse_terminals_alternates ("a[N]b") _ (by rfl)).1
  · exact (C10_parse_terminals_alternates ("a[N]b") _ (by rfl)).2

/-- C8: for every rule file and every fuel bound, `parse_rules` never
raises the internal "expected N nonterminals, somehow got M" sanity
error: whenever the reachability walk completes, every name in the
seen set is a defined nonterminal and the seen set has no duplicates,
so the reached count cannot exceed the defined count. -/
theorem C8_internal_count_branch_unreachable (lines : List String) (fuel : Nat) :
    isInternalCountErr (parse_rules lines fuel) = false := by
  unfold parse_rules
  cases ha : assemble lines [] with
  | error e =>
    have h := assemble_no_internal lines []
    rw [ha] at h
    exact h
  | ok rules => exact validate_no_internal rules fuel

/-- C5: on the rule set `RESULT = <A> " " <B>`, `A = "Hello" |
"Goodbye"`, `B = ?"[cruel] " "world"`, `all_terminals` yields exactly
the four strings `Hello \[cruel\] world`, `Hello world`,
`Goodbye \[cruel\] world`, `Goodbye world` and no others. -/
theorem C5_all_terminals_exact :
    all_terminals c5Rules 10 200 200 = .ok c5Expected := by
  rfl

/-- C9: the line `<RESULT> = "x" ?` — a production ending in the
control token `?`, legal because `JustHadOption` is an accepted
end-of-line state — is accepted by `parse_rule` and `parse_rules`,
yet expanding the trailing `?` pops a missing sibling, so
`all_terminals` raises an IndexError instead of producing strings. -/
theorem C9_trailing_option_accepted_then_index_error :
    parse_rule c9Line =
      .ok [.nonterminal "RESULT", .control '=', .literal "x", .control '?'] ∧
    parse_rules [c9Line] 50 = .ok c9Rules ∧
    all_terminals c9Rules 10 100 100 = .error .indexError := by
  refine ⟨by rfl, by rfl, by rfl⟩

/-- C2 (failing input): the rule set built from `<RESULT> = "y" ?` is
well-formed and cycle-free by the validator's own lights — it is
accepted — yet `all_terminals` raises an IndexError rather than
terminating with a non-empty duplicate-free set of strings. -/
theorem C2_accepted_ruleset_enumeration_raises :
    parse_rules [c2Line] 50 = .ok c2Rules ∧
    all_terminals c2Rules 10 100 100 = .error .indexError := by
  refine ⟨by rfl, by rfl⟩

/-- C4 (counterexample): in the `AwaitingStartOfRule` state an
unescaped `#` does not start a comment; `parse_rule "<A> = # c"`
raises a ParseError for the `#` itself. -/
theorem C4_hash_after_equals_is_error :
    parse_rule "<A> = # c" = .error ⟨"'#'", some ("a terminal or nonterminal")⟩ := by
  rfl

/-- C4 (amended): an unescaped `#` truncates the line as a comment in
the `AwaitingNonterminal` and `ContinuingRule` states, but in the
`AwaitingStartOfRule` and `JustHadOption` states it raises a
ParseError expecting "a terminal or nonterminal". -/
theorem C4_hash_comment_only_in_awaiting_or_continuing
    (stash : List PState) (content : List Char) (tokens : List Token) (rest : List Char) :
    parse_rule_aux ('#' :: rest) ⟨.continuingRule, stash, content, tokens⟩ = .ok tokens ∧
    parse_rule_aux ('#' :: rest) ⟨.awaitingNonterminal, stash, content, tokens⟩ = .ok tokens ∧
    parse_rule_aux ('#' :: rest) ⟨.awaitingStartOfRule, stash, content, tokens⟩ =
      .error ⟨"'#'", some ("a terminal or nonterminal")⟩ ∧
    parse_rule_aux ('#' :: rest) ⟨.justHadOption, stash, content, tokens⟩ =
      .error ⟨"'#'", some ("a terminal or nonterminal")⟩ := by
  refine ⟨rfl, rfl, rfl, rfl⟩

theorem mem_foldl_addSet : ∀ (l init : List String) (x : String),
    x ∈ l.foldl (fun u d => addSet d u) init ↔ x ∈ init ∨ x ∈ l := by
  intro l
  induction l with
  | nil => intro init x; simp
  | cons a as ih =>
    intro init x
    rw [List.foldl_cons, ih, mem_addSet]
    constructor
    · rintro ((h | h) | h)
      · exact Or.inl h
      · exact Or.inr (h ▸ List.mem_cons_self a as)
      · exact Or.inr (List.mem_cons_of_mem a h)
    · rintro (h | h)
      · exact Or.inl (Or.inl h)
      · rcases List.mem_cons.mp h with rfl | h
        · exact Or.inl (Or.inr rfl)
        · exact Or.inr h

theorem walk_done_reach (rules : Rules) :
    ∀ (fuel : Nat) (unseen seen : List String) (deps : Deps)
      (seenF : List String) (depsF : Deps),
      walk rules fuel unseen seen deps = .done seenF depsF →
      (∀ x ∈ unseen, Reach rules x) →
      (∀ x ∈ seen, Reach rules x) →
      (∀ x ∈ seen, ∀ p, lookupA rules x = some p →
        ∀ d ∈ depsOf p, d ∈ seen ∨ d ∈ unseen) →
      ((∀ x ∈ seenF, Reach rules x) ∧
       (∀ x ∈ seenF, ∀ p, lookupA rules x = some p → ∀ d ∈ depsOf p, d ∈ seenF) ∧
       (∀ x ∈ unseen, x ∈ seenF) ∧ (∀ x ∈ seen, x ∈ seenF)) := by
  intro fuel
  induction fuel with
  | zero =>
    intro unseen seen deps seenF depsF h
    exact absurd h (by rw [walk]; simp)
  | succ f ih =>
    intro unseen seen deps seenF depsF h hru hrs hcl
    match unseen with
    | [] =>
      rw [walk] at h
      injection h with h1 h2
      subst h1
      refine ⟨hrs, ?_, by simp, fun x hx => hx⟩
      intro x hx p hp d hd
      rcases hcl x hx p hp d hd with h | h
      · exact h
      · simp at h
    | n :: rest =>
      rw [walk] at h
      cases hl : lookupA rules n with
      | none => rw [hl] at h; exact absurd h (by simp)
      | some production =>
        rw [hl] at h
        have hrn : Reach rules n := hru n (List.mem_cons_self n rest)
        have hds : ∀ d ∈ depsOf production, Reach rules d :=
          fun d hd => Reach.step hrn hl hd
        have hru' : ∀ x ∈ (depsOf production).foldl (fun u d => addSet d u) rest,
            Reach rules x := by
          intro x hx
          rcases (mem_foldl_addSet _ _ _).mp hx with hx | hx
          · exact hru x (List.mem_cons_of_mem n hx)
          · exact hds x hx
        have hrs' : ∀ x ∈ addSet n seen, Reach rules x := by
          intro x hx
          rcases mem_addSet.mp hx with hx | rfl
          · exact hrs x hx
          · exact hrn
        have hcl' : ∀ x ∈ addSet n seen, ∀ p, lookupA rules x = some p →
            ∀ d ∈ depsOf p, d ∈ addSet n seen ∨
              d ∈ (depsOf production).foldl (fun u d => addSet d u) rest := by
          intro x hx p hp d hd
          rcases mem_addSet.mp hx with hx | rfl
          · rcases hcl x hx p hp d hd with hsn | hun
            · exact Or.inl (subset_addSet n seen hsn)
            · rcases List.mem_cons.mp hun with rfl | hun
              · exact Or.inl (mem_addSet_self d seen)
              · exact Or.inr ((mem_foldl_addSet _ _ _).mpr (Or.inl hun))
          · rw [hl] at hp
            injection hp with hp
            subst hp
            exact Or.inr ((mem_foldl_addSet _ _ _).mpr (Or.inr hd))
        obtain ⟨h1, h2, h3, h4⟩ := ih _ _ _ _ _ h hru' hrs' hcl'
        refine ⟨h1, h2, ?_, ?_⟩
        · intro x hx
          rcases List.mem_cons.mp hx with rfl | hx
          · exact h4 x (mem_addSet_self x seen)
          · exact h3 x ((mem_foldl_addSet _ _ _).mpr (Or.inl hx))
        · intro x hx
          exact h4 x (subset_addSet n seen hx)

theorem reach_mem_of_closed (rules : Rules) (S : List String)
    (hinit : INITIAL ∈ S)
    (hclosed : ∀ x ∈ S, ∀ p, lookupA rules x = some p → ∀ d ∈ depsOf p, d ∈ S) :
    ∀ n, Reach rules n → n ∈ S := by
  intro n h
  induction h with
  | init => exact hinit
  | step hr hl hd ih => exact hclosed _ ih _ hl _ hd

theorem walk_seen_iff_reach (rules : Rules) (fuel : Nat)
    (seenF : List String) (depsF : Deps)
    (hw : walk rules fuel [INITIAL] [] [] = .done seenF depsF) :
    ∀ n, n ∈ seenF ↔ Reach rules n := by
  obtain ⟨hr, hcl, hun, _⟩ := walk_done_reach rules fuel [INITIAL] [] [] seenF depsF hw
    (by intro x hx; rw [List.mem_singleton] at hx; subst hx; exact Reach.init)
    (by simp) (by simp)
  intro n
  constructor
  · exact hr n
  · exact reach_mem_of_closed rules seenF (hun INITIAL (List.mem_singleton.mpr rfl)) hcl n

theorem lookupA_isSome_of_mem {α : Type} : ∀ (l : List (String × α)) (n : String),
    n ∈ l.map Prod.fst → (lookupA l n).isSome := by
  intro l
  induction l with
  | nil => intro n h; simp at h
  | cons p rest ih =>
    intro n h
    obtain ⟨k, v⟩ := p
    rw [lookupA]
    by_cases hk : k = n
    · rw [if_pos hk]; rfl
    · rw [if_neg hk]
      apply ih
      rw [List.map_cons] at h
      rcases List.mem_cons.mp h with h | h
      · exact absurd h.symm hk
      · exact h

theorem assemble_keys_nodup : ∀ (lines : List String) (acc rules : Rules),
    assemble lines acc = .ok rules → (acc.map Prod.fst).Nodup →
    (rules.map Prod.fst).Nodup := by
  intro lines
  induction lines with
  | nil =>
    intro acc rules h hnd
    rw [assemble] at h
    injection h with h
    subst h
    exact hnd
  | cons line rest ih =>
    intro acc rules h hnd
    rw [assemble] at h
    cases hp : parse_rule line with
    | error e => rw [hp] at h; exact absurd h (by simp)
    | ok toks =>
      rw [hp] at h
      split at h
      · exact absurd h (by simp)
      · exact ih _ _ h hnd
      · exact absurd h (by simp)
      · rename_i nt eq prod heq
        split at h
        · rename_i name
          by_cases hsome : (lookupA acc name).isSome
          · rw [if_pos hsome] at h
            exact absurd h (by simp)
          · rw [if_neg hsome] at h
            refine ih _ _ h ?_
            have hnm : name ∉ acc.map Prod.fst := fun hm =>
              hsome (lookupA_isSome_of_mem acc name hm)
            rw [List.map_append, List.map_cons, List.map_nil, List.nodup_append]
            refine ⟨hnd, List.nodup_singleton name, ?_⟩
            intro a ha hb
            rw [List.mem_singleton] at hb
            subst hb
            exact hnm ha
        · exact absurd h (by simp)

theorem length_sub_eq_filter_not_mem (keys seenL : List String)
    (hk : keys.Nodup) (hs : seenL.Nodup) (hsub : ∀ x ∈ seenL, x ∈ keys) :
    keys.length - seenL.length =
      (keys.filter (fun n => !(seenL.contains n))).length := by
  classical
  have hK : keys.toFinset.card = keys.length := List.toFinset_card_of_nodup hk
  have hS : seenL.toFinset.card = seenL.length := List.toFinset_card_of_nodup hs
  have hsub2 : seenL.toFinset ⊆ keys.toFinset := by
    intro x hx
    rw [List.mem_toFinset] at hx ⊢
    exact hsub x hx
  have hfc : (keys.filter (fun n => !(seenL.contains n))).toFinset.card =
      (keys.filter (fun n => !(seenL.contains n))).length :=
    List.toFinset_card_of_nodup (hk.filter _)
  have hset : (keys.filter (fun n => !(seenL.contains n))).toFinset =
      keys.toFinset \ seenL.toFinset := by
    ext x
    simp [List.mem_filter, List.mem_toFinset, Finset.mem_sdiff]
  rw [← hfc, hset, Finset.card_sdiff hsub2, hK, hS]

/-- C7 (amended): the unreachable-count report is correct exactly when
the reachability walk terminates.  Whenever the walk of `parse_rules`
completes on the assembled rules (which the cyclic counterexample
shows it need not), its seen set is precisely the set of nonterminals
reachable from `RESULT`, and if fewer nonterminals were reached than
defined, `parse_rules` raises a RuleError reporting exactly the number
of defined-but-unreachable nonterminals. -/
theorem C7_unreachable_count_when_walk_completes
    (lines : List String) (rules : Rules) (fuel : Nat)
    (seen : List String) (deps : Deps)
    (hasm : assemble lines [] = .ok rules)
    (hw : walk rules fuel [INITIAL] [] [] = .done seen deps)
    (hlt : seen.length < rules.length) :
    0 < rules.length - seen.length ∧
    parse_rules lines fuel =
      .error (.rule (.unreachable (rules.length - seen.length))) ∧
    (∀ n, n ∈ seen ↔ Reach rules n) ∧
    rules.length - seen.length =
      ((rules.map Prod.fst).filter (fun n => !(seen.contains n))).length := by
  have hkeys : (rules.map Prod.fst).Nodup :=
    assemble_keys_nodup lines [] rules hasm (by simp)
  obtain ⟨hsnd, hssub⟩ :=
    walk_done_invariant rules fuel [INITIAL] [] [] seen deps hw
      List.nodup_nil (by simp)
  refine ⟨Nat.sub_pos_of_lt hlt, ?_, walk_seen_iff_reach rules fuel seen deps hw, ?_⟩
  · show (match assemble lines [] with
      | .error e => Except.error e
      | .ok rules => validate_rules rules fuel) = _
    rw [hasm]
    show validate_rules rules fuel = _
    unfold validate_rules
    rw [hw]
    show (if seen.length < rules.length then _ else _) = _
    rw [if_pos hlt]
  · have hlen : seen.length ≤ (rules.map Prod.fst).length := by
      rw [List.length_map]
      exact Nat.le_of_lt hlt
    have := length_sub_eq_filter_not_mem (rules.map Prod.fst) seen hkeys hsnd hssub
    rw [List.length_map] at this
    exact this

theorem C7_unreachable_count_when_walk_completes_witness :
    0 < c7Rules.length - (["RESULT"] : List String).length ∧
    parse_rules c7Lines 10 =
      .error (.rule (.unreachable
        (c7Rules.length - (["RESULT"] : List String).length))) ∧
    (∀ n, n ∈ (["RESULT"] : List String) ↔ Reach c7Rules n) ∧
    c7Rules.length - (["RESULT"] : List String).length =
      ((c7Rules.map Prod.fst).filter
        (fun n => !((["RESULT"] : List String).contains n))).length :=
  C7_unreachable_count_when_walk_completes c7Lines c7Rules 10 ["RESULT"] []
    rfl rfl (by decide)

end Rulegen
